import Mathlib

/-!
Verification development for the topic-tree publish/subscribe engine in
`src/TopicTreeDraft.h` (struct `Topic`, struct `TopicTree`).

Modelling conventions for the shallow embedding:
* `Subscriber *` pointers are modelled as `Nat` (the total order used by
  `std::set<Subscriber *>` is the pointer order).  The sentinel
  `(Subscriber *) UINTPTR_MAX` is modelled as `none : Option Nat`, i.e. the
  top element of the order, since no valid subscriber pointer can equal it.
* `Topic *` pointers are modelled as indices (`Nat`) into an arena list
  `TopicTree.topics`; `new Topic` appends to the arena.  The source never
  calls `delete` on a trimmed node (it only erases it from the parent's
  `children` map), so a trimmed node simply stays in the arena unreferenced,
  exactly as in the source.
* `std::map` / `std::set` are modelled as sorted association lists / sorted
  duplicate-free lists.  `std::set<Subscriber*>::begin()` is the head of the
  sorted list.  Dereferencing the end iterator of an empty set (which the
  source does in `publish` when a triggered topic has no subscribers) is
  undefined behaviour in C++; it is modelled as the `none` sentinel so that
  the comparison `*begin() < min` is false.  No theorem below depends on the
  value chosen for that undefined read.
* The fixed array `Topic *triggeredTopics[64]` plus `int numTriggeredTopics`
  is modelled as the list `TopicTree.triggeredTopics`; the source performs no
  bound check when appending, so neither does the model (an append at
  position >= 64 is an out-of-bounds write in the source, see claim C4).
* `intersection |= (1 << i)` shifts the 32-bit `int` literal `1`; for
  `i >= 31` this is undefined behaviour in C++.  `cppShift` models the
  behaviour observed on the usual x86-64 targets: the shift count is taken
  mod 32, and the resulting `int` is sign-extended when converted to
  `uint64_t` (so `1 << 31` becomes `0xFFFFFFFF80000000`).
-/

namespace TopicTreeModel

/-- One trie node, `struct Topic` from the source.  `name` owns the segment
text; `children` is the `std::map<std::string_view, Topic *>` (association
list; the modelled operations never iterate over it, so its internal order is
not observable); `messages` is the `std::map<int, std::string>` of pending
payloads keyed by publish sequence id (sorted association list); `subs` is
the `std::set<Subscriber *>` (sorted, duplicate-free). -/
structure Topic where
  name : String
  parent : Option Nat
  triggered : Bool
  children : List (String × Nat)
  wildcardChild : Option Nat
  terminatingWildcardChild : Option Nat
  messages : List (Nat × String)
  subs : List Nat
deriving Repr, DecidableEq

instance : Inhabited Topic :=
  ⟨⟨"", none, false, [], none, none, [], []⟩⟩

/-- The tree state, `struct TopicTree` from the source.  `topics` is the node
arena (root at index 0), `messageId` the global sequence counter,
`triggeredTopics` the batch of triggered nodes (in trigger order), `minSub`
the member `Subscriber *min` (with `none` standing for `UINTPTR_MAX`). -/
structure TopicTree where
  topics : List Topic
  messageId : Nat
  triggeredTopics : List Nat
  minSub : Option Nat
deriving Repr, DecidableEq

/-- A fresh tree: `Topic *root = new Topic;`, counter 0, empty batch,
`min = (Subscriber *) UINTPTR_MAX`. -/
def TopicTree.init : TopicTree :=
  { topics := [default], messageId := 0, triggeredTopics := [], minSub := none }

/-- Dereference a `Topic *` (arena index). -/
def getTopic (tt : TopicTree) (id : Nat) : Topic :=
  tt.topics.getD id default

/-- Write through a `Topic *` (arena index). -/
def setTopic (tt : TopicTree) (id : Nat) (t : Topic) : TopicTree :=
  { tt with topics := tt.topics.set id t }

/-- `a < b` on `Subscriber *` values where `none` models `UINTPTR_MAX`. -/
def optLt : Option Nat → Option Nat → Bool
  | some _, none => true
  | some a, some b => a < b
  | none, _ => false

/-- `a <= b` on the same order. -/
def optLe (a b : Option Nat) : Bool :=
  !optLt b a

/-- `std::set` insertion into a sorted duplicate-free list. -/
def insertSorted (x : Nat) : List Nat → List Nat
  | [] => [x]
  | y :: ys =>
    if x < y then x :: y :: ys
    else if x = y then y :: ys
    else y :: insertSorted x ys

/-- `std::map::operator[]` followed by assignment (insert-or-assign) on a
sorted association list, used for `messages[messageId] = message` and for
`intersectionCache[intersection] = res`. -/
def mapAssign (k : Nat) (v : String) : List (Nat × String) → List (Nat × String)
  | [] => [(k, v)]
  | (k', v') :: t =>
    if k < k' then (k, v) :: (k', v') :: t
    else if k = k' then (k, v) :: t
    else (k', v') :: mapAssign k v t

/-- `std::map::insert` of a single entry: inserts only if the key is absent
(the existing entry wins), used for building the `complete` merge map. -/
def insertNoReplace (l : List (Nat × String)) (k : Nat) (v : String) :
    List (Nat × String) :=
  match l with
  | [] => [(k, v)]
  | (k', v') :: t =>
    if k < k' then (k, v) :: (k', v') :: t
    else if k = k' then (k', v') :: t
    else (k', v') :: insertNoReplace t k v

/-- `std::map::erase(key)` on the `children` association list. -/
def eraseKey (k : String) (l : List (String × Nat)) : List (String × Nat) :=
  l.filter (fun kv => kv.1 != k)

/-- The segment split performed by the `topic.find('/', start)` loops in
`subscribe` and `publish`: every call yields at least one segment, and a
trailing `/` yields a trailing empty segment (as with `std::string::npos`
arithmetic in the source). -/
def splitTopicAux : List Char → List Char → List String
  | [], acc => [String.mk acc.reverse]
  | c :: rest, acc =>
    if c = '/' then String.mk acc.reverse :: splitTopicAux rest []
    else splitTopicAux rest (c :: acc)

def splitTopic (s : String) : List String :=
  splitTopicAux s.data []

/-! ### subscribe -/

/-- The traversal loop of `TopicTree::subscribe`: for each segment, find the
child under that exact key (`lower_bound` + key equality in the source is a
plain map lookup) or allocate and insert a new node, setting the parent's
wildcard fast-path pointer when the new segment is `"+"` or `"#"`.  Returns
the updated tree and the terminal node. -/
def subscribeLoop (tt : TopicTree) (iter : Nat) : List String → TopicTree × Nat
  | [] => (tt, iter)
  | seg :: rest =>
    match (getTopic tt iter).children.lookup seg with
    | some child => subscribeLoop tt child rest
    | none =>
      let newId := tt.topics.length
      let newTopic : Topic :=
        { name := seg, parent := some iter, triggered := false, children := [],
          wildcardChild := none, terminatingWildcardChild := none,
          messages := [], subs := [] }
      let tt1 : TopicTree := { tt with topics := tt.topics ++ [newTopic] }
      let parentT := getTopic tt1 iter
      let parentT :=
        { parentT with
          children := parentT.children ++ [(seg, newId)],
          wildcardChild :=
            if seg = "+" then some newId else parentT.wildcardChild,
          terminatingWildcardChild :=
            if seg = "#" then some newId else parentT.terminatingWildcardChild }
      let tt2 := setTopic tt1 iter parentT
      subscribeLoop tt2 newId rest

/-- `TopicTree::subscribe`: walk/extend the trie, then
`iterator->subs.insert(subscriber)` and
`subscriber->subscriptions.push_back(iterator)`.  The subscriber's
`subscriptions` list is threaded explicitly (it lives in `struct Subscriber`
in the source). -/
def subscribe (tt : TopicTree) (topic : String) (s : Nat)
    (subscriptions : List Nat) : TopicTree × List Nat :=
  let (tt1, term) := subscribeLoop tt 0 (splitTopic topic)
  let t := getTopic tt1 term
  (setTopic tt1 term { t with subs := insertSorted s t.subs },
   subscriptions ++ [term])

/-! ### publish -/

/-- Store the payload on a node and mark it triggered, lines 106-119 and
136-149 of the source (the two code sites are identical):
`messages[messageId] = message`, then, if the node was not yet triggered,
append it to `triggeredTopics`, update `min` from `*subs.begin()` (the
undefined empty-set dereference is modelled as the `none` sentinel, making
the comparison false), and set `triggered`. -/
def triggerTopic (tt : TopicTree) (id : Nat) (message : String) : TopicTree :=
  let t := getTopic tt id
  let tt1 := setTopic tt id { t with messages := mapAssign tt.messageId message t.messages }
  let t1 := getTopic tt1 id
  if t1.triggered then tt1
  else
    let tt2 := { tt1 with triggeredTopics := tt1.triggeredTopics ++ [id] }
    let tt3 :=
      if optLt t1.subs.head? tt2.minSub then { tt2 with minSub := t1.subs.head? }
      else tt2
    setTopic tt3 id { (getTopic tt3 id) with triggered := true }

/-- The private recursive `TopicTree::publish(Topic *, size_t, size_t, ...)`.
At each remaining segment: a `terminatingWildcardChild` immediately receives
the payload; a `wildcardChild` recurses with the next segment; the exact
branch continues by child lookup or stops.  When all segments are consumed
the current node receives the payload.  Note that with zero remaining
segments the loop body is not entered, so a `terminatingWildcardChild` of the
final node is not visited. -/
def publishRec (tt : TopicTree) (iter : Nat) (segs : List String)
    (message : String) : TopicTree :=
  match segs with
  | [] => triggerTopic tt iter message
  | seg :: rest =>
    let tt1 :=
      match (getTopic tt iter).terminatingWildcardChild with
      | some tw => triggerTopic tt tw message
      | none => tt
    let tt2 :=
      match (getTopic tt1 iter).wildcardChild with
      | some w => publishRec tt1 w rest message
      | none => tt1
    match (getTopic tt2 iter).children.lookup seg with
    | none => tt2
    | some child => publishRec tt2 child rest message

/-- `TopicTree::publish(std::string_view, std::string_view)`: run the
recursive walk from the root, then `messageId++`. -/
def publish (tt : TopicTree) (topic : String) (message : String) : TopicTree :=
  let tt1 := publishRec tt 0 (splitTopic topic) message
  { tt1 with messageId := tt1.messageId + 1 }

/-! ### trim and unsubscribe -/

/-- One activation of `TopicTree::trimTree` plus its upward recursion,
bounded by explicit fuel (in any reachable tree the parent's arena index is
strictly smaller than the child's, so `topics.length` fuel always suffices).
If the node has no subscribers, no children and no wildcard children, clear
the parent's wildcard fast-path pointer when the node is named `"#"` or
`"+"`, erase the node from the parent's `children`, and recurse on the
parent unless it is the root. -/
def trimTreeAux (fuel : Nat) (tt : TopicTree) (id : Nat) : TopicTree :=
  match fuel with
  | 0 => tt
  | fuel + 1 =>
    let t := getTopic tt id
    if t.subs = [] ∧ t.children = [] ∧ t.terminatingWildcardChild = none ∧
        t.wildcardChild = none then
      match t.parent with
      | none => tt
      | some p =>
        let pt := getTopic tt p
        let pt :=
          if t.name = "#" then { pt with terminatingWildcardChild := none }
          else if t.name = "+" then { pt with wildcardChild := none }
          else pt
        let pt := { pt with children := eraseKey t.name pt.children }
        let tt1 := setTopic tt p pt
        if p ≠ 0 then trimTreeAux fuel tt1 p else tt1
    else tt

def trimTree (tt : TopicTree) (id : Nat) : TopicTree :=
  trimTreeAux tt.topics.length tt id

/-- `TopicTree::unsubscribeAll`: for every node in the subscriber's
`subscriptions` list, erase the subscriber from that node's set and trim
from there. -/
def unsubscribeAll (tt : TopicTree) (s : Nat) (subscriptions : List Nat) :
    TopicTree :=
  subscriptions.foldl
    (fun tt id =>
      let t := getTopic tt id
      trimTree (setTopic tt id { t with subs := t.subs.erase s }) id)
    tt

/-! ### drain -/

/-- One delivery performed by the Delivery Sink callback `cb` during drain:
the target subscriber (the member `min`, possibly the `UINTPTR_MAX` sentinel
`none`), the payload, and whether this invocation constructed the payload
(first branch of the cache check) or reused a cached one (second branch). -/
structure Deliv where
  target : Option Nat
  payload : String
  built : Bool
deriving Repr, DecidableEq

/-- State of the k-way merge loop in `TopicTree::drain`: per triggered topic
the remaining cursor `it[i]..end[i]` paired with that topic's `messages`
map, the `int nonEmpty` counter, the member `min`, and the per-drain
`intersectionCache`. -/
structure MergeState where
  topics : List (List Nat × List (Nat × String))
  nonEmpty : Int
  minIt : Option Nat
  cache : List (Nat × String)
deriving Repr, DecidableEq

/-- `(it[i] != end[i]) && (*it[i] == min)`. -/
def matchesMin (m : Option Nat) : List Nat → Bool
  | [] => false
  | h :: _ => some h == m

/-- The value `(uint64_t)(1 << i)` as computed on the usual x86-64 targets:
the `int` shift masks the count mod 32, and `1 << 31` overflows to `INT_MIN`
which sign-extends to `0xFFFFFFFF80000000` (for `i >= 31` the source's shift
is undefined behaviour in C++). -/
def cppShift (i : Nat) : Nat :=
  if i % 32 = 31 then 0xFFFFFFFF80000000 else 2 ^ (i % 32)

/-- `intersection |= (1 << i)` accumulated over the indices whose cursor
matched `min`, starting from index `i0`. -/
def encodeFlagsFrom (i0 : Nat) : List Bool → Nat
  | [] => 0
  | b :: bs => (if b then cppShift i0 else 0).lor (encodeFlagsFrom (i0 + 1) bs)

/-- Select the entries of `l` whose flag is set, preserving order: the
message maps collected into `perSubscriberIntersectingTopicMessages`. -/
def selectFlags : List Bool → List α → List α
  | [], _ => []
  | _, [] => []
  | b :: bs, x :: xs =>
    if b then x :: selectFlags bs xs else selectFlags bs xs

/-- `it[i]++` for the cursors that matched `min`. -/
def advanceCursor (m : Option Nat) (c : List Nat) : List Nat :=
  if matchesMin m c then c.tail else c

/-- `if (nextMin > x) nextMin = x` folded over the per-index contributions:
a matched cursor contributes its element after `++`, an unmatched live
cursor contributes its current element (both are the head of the advanced
cursor). -/
def optMin (a b : Option Nat) : Option Nat :=
  if optLt b a then b else a

/-- `nonEmpty--` happens for every cursor that matched `min` and became
exhausted by the `++`. -/
def newlyExhausted (m : Option Nat)
    (topics : List (List Nat × List (Nat × String))) : Nat :=
  topics.countP (fun tc => matchesMin m tc.1 && tc.1.tail.isEmpty)

/-- Build the `complete` union map: `std::map::insert` over the ranges of
every matched topic's messages, earlier topics winning on duplicate keys. -/
def unionKeepFirst (maps : List (List (Nat × String))) : List (Nat × String) :=
  maps.foldl (fun acc mp => mp.foldl (fun a kv => insertNoReplace a kv.1 kv.2) acc) []

/-- Concatenate the union's payloads in ascending sequence-id order
(`res.append(p.second)` over `complete`). -/
def buildPayload (maps : List (List (Nat × String))) : String :=
  String.join ((unionKeepFirst maps).map (fun kv => kv.2))

/-- `intersectionCache[intersection]`: `operator[]` default-constructs an
empty string for an absent key, so the subsequent `.length() == 0` test sees
`""` exactly when the key is absent or caches an empty payload. -/
def cacheLookup (cache : List (Nat × String)) (k : Nat) : String :=
  (cache.lookup k).getD ""

/-- One iteration of the merge loop (lines 261-318 of the source), split
into its independent per-index accumulations: which cursors match `min`
(`flags`), the bitmask `intersection`, the matched message maps, the cursor
advances, the `nonEmpty` decrements and the `nextMin` recomputation; then
the cache check, the payload construction or reuse, the `cb` invocation and
`min = nextMin`. -/
def drainIter (st : MergeState) : MergeState × Deliv :=
  let flags := st.topics.map (fun tc => matchesMin st.minIt tc.1)
  let inter := encodeFlagsFrom 0 flags
  let msgsets := selectFlags flags (st.topics.map (fun tc => tc.2))
  let topics1 := st.topics.map (fun tc => (advanceCursor st.minIt tc.1, tc.2))
  let ne1 := st.nonEmpty - (newlyExhausted st.minIt st.topics : Int)
  let nextMin := (topics1.map (fun tc => tc.1.head?)).foldl optMin none
  let v := cacheLookup st.cache inter
  if v = "" then
    let res := buildPayload msgsets
    ({ topics := topics1, nonEmpty := ne1, minIt := nextMin,
       cache := mapAssign inter res st.cache },
     ⟨st.minIt, res, true⟩)
  else
    ({ topics := topics1, nonEmpty := ne1, minIt := nextMin, cache := st.cache },
     ⟨st.minIt, v, false⟩)

/-- The merge loop `for (int nonEmpty = numTriggeredTopics; nonEmpty; )`,
with explicit fuel: `none` means the loop did not terminate within `fuel`
iterations.  Deliveries are accumulated in order. -/
def drainLoop : Nat → MergeState → List Deliv → Option (MergeState × List Deliv)
  | 0, st, ds => if st.nonEmpty = 0 then some (st, ds) else none
  | fuel + 1, st, ds =>
    if st.nonEmpty = 0 then some (st, ds)
    else drainLoop fuel (drainIter st).1 (ds ++ [(drainIter st).2])

/-- `triggeredTopics[i]->messages.clear(); triggeredTopics[i]->triggered = false;` -/
def clearTopic (tt : TopicTree) (id : Nat) : TopicTree :=
  setTopic tt id { (getTopic tt id) with messages := [], triggered := false }

/-- The initial merge-loop state built by `drain`: one cursor per triggered
topic starting at `subs.begin()`, `nonEmpty = numTriggeredTopics`, the member
`min`, and an empty `intersectionCache`. -/
def initMergeState (tt : TopicTree) : MergeState :=
  { topics := tt.triggeredTopics.map
      (fun id => ((getTopic tt id).subs, (getTopic tt id).messages)),
    nonEmpty := (tt.triggeredTopics.length : Int),
    minIt := tt.minSub,
    cache := [] }

/-- `TopicTree::drain`: early return on an empty batch; otherwise run the
merge loop (the `numTriggeredTopics == -555555` fast path is disabled dead
code), then clear `messages` and `triggered` on every batch node and reset
the batch; the member `min` keeps the loop's final `nextMin` value.  `none`
means the merge loop did not terminate within `fuel` iterations. -/
def drain (fuel : Nat) (tt : TopicTree) : Option (TopicTree × List Deliv) :=
  if tt.triggeredTopics.length = 0 then some (tt, [])
  else
    (drainLoop fuel (initMergeState tt) []).map
      (fun p =>
        ({ tt.triggeredTopics.foldl clearTopic tt with
            triggeredTopics := [], minSub := p.1.minIt },
         p.2))

/-! ### Specification-side definitions

The following definitions follow the wording of the specification (not the
source); they are used to state refinement conclusions about `drain`. -/

/-- Sorted duplicate-free union of a family of subscriber sets: "per distinct
subscriber that belongs to at least one triggered node". -/
def unionSorted (ls : List (List Nat)) : List Nat :=
  ls.foldr (fun l acc => l.foldr insertSorted acc) []

/-- Which triggered topics a subscriber belongs to, as per-index flags. -/
def memberFlags (s : Nat) (subs0 : List (List Nat)) : List Bool :=
  subs0.map (fun l => l.contains s)

/-- Modelled from the spec: "the concatenation, in ascending sequence-id
order, of the messages of all triggered nodes that subscriber belongs to,
with a sequence id present on several of those nodes contributing its
payload exactly once" — the sorted union of the sequence ids, each mapped to
the payload of the first node carrying it, concatenated in ascending order. -/
def allIds (maps : List (List (Nat × String))) : List Nat :=
  unionSorted (maps.map (fun mp => mp.map (fun kv => kv.1)))

def firstValueFor (maps : List (List (Nat × String))) (id : Nat) : String :=
  ((maps.filterMap (fun mp => mp.lookup id)).head?).getD ""

def specMergedPayload (maps : List (List (Nat × String))) : String :=
  String.join ((allIds maps).map (firstValueFor maps))

/-- The payload claim C1 assigns to subscriber `s`: the merged messages of
exactly those triggered nodes whose subscriber set contains `s`. -/
def subscriberPayload (tt : TopicTree) (s : Nat) : String :=
  specMergedPayload
    ((tt.triggeredTopics.filter (fun id => (getTopic tt id).subs.contains s)).map
      (fun id => (getTopic tt id).messages))

/-- Child-pointer well-formedness: every `children` entry points to a
strictly larger arena index inside the arena (true in every tree reachable
from `TopicTree.init`, since `subscribe` allocates children after their
parents). -/
def childWF (tt : TopicTree) : Prop :=
  ∀ i < tt.topics.length, ∀ kv ∈ (getTopic tt i).children,
    i < kv.2 ∧ kv.2 < tt.topics.length

instance (tt : TopicTree) : Decidable (childWF tt) := by
  unfold childWF; infer_instance

/-! ### Concrete states used by individual claims -/

/-- 65 distinct one-segment topic names. -/
def names65 : List String := (List.range 65).map (fun i => "t" ++ Nat.repr i)

/-- Claim C4's failing input: 65 distinct topics each subscribed once, then
65 publishes in one undrained window, so 65 nodes are newly triggered. -/
def c4state : TopicTree :=
  let tt := names65.foldl (fun tt n => (subscribe tt n 9 []).1) TopicTree.init
  names65.foldl (fun tt n => publish tt n "m") tt

/-- The middle 31 topic names for claim C6. -/
def namesMid : List String := (List.range 31).map (fun i => "m" ++ Nat.repr (i + 1))

/-- Claim C6's failing input: 33 triggered topics; subscriber 1 only in the
topic at batch index 0 (message "X"), subscriber 2 only in the topic at batch
index 32 (message "Y"), subscriber 3 in the 31 topics in between. -/
def c6state : TopicTree :=
  let tt := (subscribe TopicTree.init "m0" 1 []).1
  let tt := (subscribe tt "m32" 2 []).1
  let tt := namesMid.foldl (fun tt n => (subscribe tt n 3 []).1) tt
  let tt := publish tt "m0" "X"
  let tt := namesMid.foldl (fun tt n => publish tt n "Z") tt
  publish tt "m32" "Y"

/-- Claim C1's counterexample input: subscriber 5 subscribes to "a", a
publish triggers the topic (recording `min = 5`), then subscriber 3 (a
smaller pointer) subscribes to the same topic before the drain. -/
def c1cex : TopicTree :=
  (subscribe (publish (subscribe TopicTree.init "a" 5 []).1 "a" "M") "a" 3 []).1

/-- Claim C5's counterexample input: two subscribers of one topic and a
publish whose payload is the empty string. -/
def c5cex : TopicTree :=
  publish (subscribe (subscribe TopicTree.init "a" 3 []).1 "a" 5 []).1 "a" ""

/-- Claim C2's failing input: subscribing to "a/b" creates the intermediate
node "a" with no subscribers; publishing "a" then triggers that node. -/
def c2cex : TopicTree :=
  publish (subscribe TopicTree.init "a/b" 5 []).1 "a" "M"

/-- Claim C7's witness input: one subscriber of "a" and one publish. -/
def c7input : TopicTree :=
  publish (subscribe TopicTree.init "a" 5 []).1 "a" "x"

/-- The state `drain 3 c7input` produces. -/
def c7after : TopicTree :=
  { topics := [⟨"", none, false, [("a", 1)], none, none, [], []⟩,
      ⟨"a", some 0, false, [], none, none, [], [5]⟩],
    messageId := 1, triggeredTopics := [], minSub := none }


/-! ### Definitions supporting the merge-correctness and retrace proofs -/

/-- The payload that claim C1 assigns to subscriber `s` at the merge level:
the built payload of exactly those topics whose subscriber set contains
`s`. -/
def payloadFor (subs0 : List (List Nat)) (msgs0 : List (List (Nat × String)))
    (s : Nat) : String :=
  buildPayload (selectFlags (memberFlags s subs0) msgs0)
/-- Invariant of the k-way merge loop relating the loop state to the sorted
union of the original subscriber sets: `done` are the already-delivered
subscribers, `rem` the remaining ones; every cursor holds exactly its
topic's not-yet-delivered subscribers; `min` is the next subscriber; the
cache holds only correctly-keyed payloads of previously delivered subsets;
and the deliveries so far are exactly one per done subscriber with the
correct payload, with at most the first delivery of a non-empty payload per
distinct matched subset constructing it. -/
structure MergeInv (subs0 : List (List Nat)) (msgs0 : List (List (Nat × String)))
    (done rem : List Nat) (st : MergeState) (ds : List Deliv) : Prop where
  split_eq : unionSorted subs0 = done ++ rem
  topics_eq : st.topics =
    (subs0.map (fun l => l.filter (fun x => rem.contains x))).zip msgs0
  min_eq : st.minIt = rem.head?
  ne_eq : st.nonEmpty = (st.topics.countP (fun tc => !tc.1.isEmpty) : Int)
  cache_keys : List.Pairwise (fun a b => a.1 < b.1) st.cache
  cache_ok : ∀ kv ∈ st.cache, kv.2 = "" ∨ ∃ bs, bs.length = subs0.length ∧
      kv.1 = encodeFlagsFrom 0 bs ∧ kv.2 = buildPayload (selectFlags bs msgs0) ∧
      ∃ s ∈ done, memberFlags s subs0 = bs
  cache_hist : ∀ s ∈ done, payloadFor subs0 msgs0 s ≠ "" →
      st.cache.lookup (encodeFlagsFrom 0 (memberFlags s subs0)) =
        some (payloadFor subs0 msgs0 s)
  ds_eq : List.Forall₂
      (fun s d => d.target = some s ∧ d.payload = payloadFor subs0 msgs0 s)
      done ds
  ds_built : List.Pairwise
      (fun p q => memberFlags p.1 subs0 = memberFlags q.1 subs0 →
        payloadFor subs0 msgs0 p.1 ≠ "" → q.2.built = false)
      (done.zip ds)
/-- Concrete batch state for the C1 witness: two triggered nodes, subscriber
5 on both, subscriber 3 only on the first. -/
def c1wit : TopicTree :=
  { topics :=
      [{ name := "", parent := none, triggered := false,
         children := [("a", 1), ("b", 2)], wildcardChild := none,
         terminatingWildcardChild := none, messages := [], subs := [] },
       { name := "a", parent := some 0, triggered := true, children := [],
         wildcardChild := none, terminatingWildcardChild := none,
         messages := [(0, "A")], subs := [3, 5] },
       { name := "b", parent := some 0, triggered := true, children := [],
         wildcardChild := none, terminatingWildcardChild := none,
         messages := [(1, "B")], subs := [5] }],
    messageId := 2, triggeredTopics := [1, 2], minSub := some 3 }
/-- Concrete batch state for the C5 witness: one triggered node with two
subscribers matching the identical subset of the batch. -/
def c5wit : TopicTree :=
  { topics :=
      [{ name := "", parent := none, triggered := false,
         children := [("a", 1)], wildcardChild := none,
         terminatingWildcardChild := none, messages := [], subs := [] },
       { name := "a", parent := some 0, triggered := true, children := [],
         wildcardChild := none, terminatingWildcardChild := none,
         messages := [(0, "A")], subs := [3, 5] }],
    messageId := 1, triggeredTopics := [1], minSub := some 3 }
/-- The parent record rewritten by one `trimTree` detach step: clear the
wildcard fast-path pointer when the removed child is `"#"` or `"+"`, then
erase the child from `children`. -/
def trimmedParent (t pt : Topic) : Topic :=
  let pt1 :=
    if t.name = "#" then { pt with terminatingWildcardChild := none }
    else if t.name = "+" then { pt with wildcardChild := none }
    else pt
  { pt1 with children := eraseKey t.name pt1.children }
/-- Child pointers always point downward in the arena while parent pointers
point upward: every in-range node's parent has a strictly smaller index
(true of every tree built by `subscribe`, which allocates children after
their parents). -/
def parentWF (tt : TopicTree) : Prop :=
  ∀ i < tt.topics.length, ∀ q, (getTopic tt i).parent = some q → q < i
/-- Concrete state for the C9 witness: a root and one subscribed node. -/
def c9wit : TopicTree :=
  { topics :=
      [{ name := "", parent := none, triggered := false,
         children := [("a", 1)], wildcardChild := none,
         terminatingWildcardChild := none, messages := [], subs := [] },
       { name := "a", parent := some 0, triggered := false, children := [],
         wildcardChild := none, terminatingWildcardChild := none,
         messages := [], subs := [7] }],
    messageId := 0, triggeredTopics := [], minSub := none }
/-- The node allocated by `subscribe` for a missing segment. -/
def newTopicFor (iter : Nat) (sg : String) : Topic :=
  { name := sg, parent := some iter, triggered := false, children := [],
    wildcardChild := none, terminatingWildcardChild := none,
    messages := [], subs := [] }
/-- The parent record after `subscribe` inserts a missing child. -/
def extendedParent (tt : TopicTree) (iter : Nat) (sg : String) : Topic :=
  let tt1 : TopicTree := { tt with topics := tt.topics ++ [newTopicFor iter sg] }
  let parentT := getTopic tt1 iter
  { parentT with
    children := parentT.children ++ [(sg, tt.topics.length)],
    wildcardChild :=
      if sg = "+" then some tt.topics.length else parentT.wildcardChild,
    terminatingWildcardChild :=
      if sg = "#" then some tt.topics.length else parentT.terminatingWildcardChild }
/-- The tree after `subscribe` allocates a missing child: the arena grows by
the new node and the parent receives the new child entry. -/
def extendTree (tt : TopicTree) (iter : Nat) (sg : String) : TopicTree :=
  setTopic { tt with topics := tt.topics ++ [newTopicFor iter sg] } iter
    (extendedParent tt iter sg)

end TopicTreeModel

namespace TopicTreeModel

/-! ### Basic arena access lemmas -/

theorem getTopic_setTopic_self (tt : TopicTree) (id : Nat) (t : Topic) :
    getTopic (setTopic tt id t) id =
      if id < tt.topics.length then t else default := by
  simp only [getTopic, setTopic, List.getD_eq_getElem?_getD, List.getElem?_set_self']
  split
  · next h => simp [List.getElem?_eq_getElem h]
  · next h =>
    rw [List.getElem?_eq_none (by omega)]
    rfl

theorem getTopic_setTopic_ne (tt : TopicTree) {id j : Nat} (h : id ≠ j) (t : Topic) :
    getTopic (setTopic tt id t) j = getTopic tt j := by
  simp [getTopic, setTopic, List.getD_eq_getElem?_getD, List.getElem?_set_ne h]

/-! ### The merge loop never terminates when every cursor starts empty
(`nonEmpty` counts the initially empty cursors but they never transition to
exhausted, so the loop condition stays true). -/

theorem drainIter_of_all_empty (st : MergeState)
    (h : ∀ tc ∈ st.topics, tc.1 = ([] : List Nat)) :
    (drainIter st).1.topics = st.topics ∧
      (drainIter st).1.nonEmpty = st.nonEmpty := by
  have htop : st.topics.map (fun tc => (advanceCursor st.minIt tc.1, tc.2)) = st.topics := by
    have h2 : st.topics.map (fun tc => (advanceCursor st.minIt tc.1, tc.2)) =
        st.topics.map (fun tc => tc) := by
      apply List.map_congr_left
      intro tc htc
      simp only [advanceCursor, h tc htc, matchesMin, Bool.false_eq_true, if_false]
      rw [← h tc htc]
    simpa using h2
  have hne : newlyExhausted st.minIt st.topics = 0 := by
    simp only [newlyExhausted]
    rw [List.countP_eq_zero]
    intro tc htc
    simp [matchesMin, h tc htc]
  unfold drainIter
  simp only [hne, htop]
  split <;> simp

theorem drainLoop_none_of_all_empty (fuel : Nat) :
    ∀ (st : MergeState) (ds : List Deliv),
      (∀ tc ∈ st.topics, tc.1 = ([] : List Nat)) → st.nonEmpty ≠ 0 →
      drainLoop fuel st ds = none := by
  induction fuel with
  | zero =>
    intro st ds _ hne
    simp [drainLoop, hne]
  | succ fuel ih =>
    intro st ds h hne
    rw [drainLoop]
    simp only [hne, if_false]
    obtain ⟨h1, h2⟩ := drainIter_of_all_empty st h
    exact ih _ _ (h1 ▸ h) (h2 ▸ hne)

end TopicTreeModel

namespace TopicTreeModel

/-! ### Merge-loop stepping lemmas -/

theorem drainLoop_stop (fuel : Nat) (st : MergeState) (ds : List Deliv)
    (h : st.nonEmpty = 0) : drainLoop fuel st ds = some (st, ds) := by
  cases fuel <;> simp [drainLoop, h]

theorem drainLoop_step (fuel : Nat) (st : MergeState) (ds : List Deliv)
    (h : ¬ st.nonEmpty = 0) :
    drainLoop (fuel + 1) st ds =
      drainLoop fuel (drainIter st).1 (ds ++ [(drainIter st).2]) := by
  rw [drainLoop, if_neg h]

theorem drainLoop_mono {fuel fuel1 : Nat} (h : fuel ≤ fuel1) :
    ∀ (st : MergeState) (ds : List Deliv) (out : MergeState × List Deliv),
      drainLoop fuel st ds = some out → drainLoop fuel1 st ds = some out := by
  induction fuel generalizing fuel1 with
  | zero =>
    intro st ds out hsome
    rw [drainLoop] at hsome
    by_cases h0 : st.nonEmpty = 0
    · rw [if_pos h0] at hsome
      rw [drainLoop_stop _ _ _ h0]
      exact hsome
    · rw [if_neg h0] at hsome
      exact absurd hsome (by simp)
  | succ fuel ih =>
    intro st ds out hsome
    by_cases h0 : st.nonEmpty = 0
    · rw [drainLoop_stop _ _ _ h0] at hsome
      rw [drainLoop_stop _ _ _ h0]
      exact hsome
    · obtain ⟨fuel2, rfl⟩ : ∃ f2, fuel1 = f2 + 1 :=
        ⟨fuel1 - 1, by omega⟩
      rw [drainLoop_step _ _ _ h0] at hsome
      rw [drainLoop_step _ _ _ h0]
      exact ih (by omega) _ _ _ hsome

/-- Computation of one merge iteration for a single triggered topic with a
single subscriber. -/
theorem drainIter_single (s : Nat) (mp : List (Nat × String)) :
    drainIter ⟨[([s], mp)], 1, some s, []⟩ =
      (⟨[([], mp)], 0, none, [(1, buildPayload [mp])]⟩,
       ⟨some s, buildPayload [mp], true⟩) := by
  simp [drainIter, matchesMin, advanceCursor, newlyExhausted, encodeFlagsFrom,
    cppShift, selectFlags, optMin, optLt, cacheLookup, mapAssign, Nat.lor]

theorem drainLoop_single (s : Nat) (mp : List (Nat × String)) :
    drainLoop 1 ⟨[([s], mp)], 1, some s, []⟩ [] =
      some (⟨[([], mp)], 0, none, [(1, buildPayload [mp])]⟩,
        [⟨some s, buildPayload [mp], true⟩]) := by
  rw [drainLoop_step 0 _ _ (by simp), drainIter_single]
  rw [drainLoop_stop _ _ _ (by simp)]
  rfl

end TopicTreeModel

namespace TopicTreeModel

set_option maxRecDepth 1000000

/-! ### Claim C2: drain non-termination on an empty subscriber set -/

/-- C2: the claim states that drain terminates for every reachable batch
state, in particular when a triggered node has an empty subscriber set.  The
code violates this: subscribing to "a/b" creates the intermediate node "a"
with no subscribers, publishing "a" triggers exactly that node, and the merge
loop then never terminates — its `nonEmpty` counter is initialised to the
full batch count, so it counts the topic, but the decrement sits inside the
`(it[i] != end[i]) && (*it[i] == min)` branch, which an already-exhausted
cursor never enters, so `nonEmpty` never reaches 0.  This theorem evaluates
the code at that failing input: for every fuel bound, the loop fails to
finish.  The publish at this input also reads `*subs.begin()` of the empty
set when it updates the member `min` (undefined behaviour, modelled by the
`none` sentinel); the final conjunct shows the verdict does not depend on
that concretization: whatever value `min` holds when drain starts — the
sentinel or any subscriber value the indeterminate read might produce — the
merge loop still never terminates, because loop progress only ever comes
from advancing a non-empty cursor and the sole cursor is empty from the
start. -/
theorem drain_nonterminating_on_empty_subscriber_set :
    (getTopic c2cex 1).name = "a" ∧ (getTopic c2cex 1).subs = [] ∧
      c2cex.triggeredTopics = [1] ∧
      (∀ fuel, drain fuel c2cex = none) ∧
      (∀ m fuel, drain fuel { c2cex with minSub := m } = none) := by
  refine ⟨by decide, by decide, by decide, ?_, ?_⟩
  · intro fuel
    unfold drain
    rw [if_neg (by decide)]
    rw [drainLoop_none_of_all_empty fuel _ [] (by decide) (by decide)]
    rfl
  · intro m fuel
    have htt : ({ c2cex with minSub := m } : TopicTree).triggeredTopics =
        c2cex.triggeredTopics := rfl
    have htopics : (initMergeState { c2cex with minSub := m }).topics =
        (initMergeState c2cex).topics := rfl
    have hnem : (initMergeState { c2cex with minSub := m }).nonEmpty =
        (initMergeState c2cex).nonEmpty := rfl
    unfold drain
    rw [if_neg (by rw [htt]; decide)]
    rw [drainLoop_none_of_all_empty fuel _ []
      (by rw [htopics]; decide) (by rw [hnem]; decide)]
    rfl

/-! ### Claim C4: the triggered batch overflows its 64-entry capacity -/

/-- C4: the claim states that a 65th newly-triggered node in one undrained
window is surfaced as a capacity error and that no write occurs past the
64-entry bound.  The code has no bound check at all
(`triggeredTopics[numTriggeredTopics++] = ...`): evaluating 65 triggering
publishes shows the batch silently holding 65 entries — in the source the
65th append is an out-of-bounds write past `Topic *triggeredTopics[64]`, and
no error condition of any kind is surfaced (`publish` has no error path). -/
theorem publish_overflows_triggered_batch :
    c4state.triggeredTopics.length = 65 := by decide

/-! ### Claim C6: the intersection bitmask collides past index 31 -/

/-- C6: the claim states that the matched subset of triggered nodes is keyed
by a bitmask with one distinct bit per node for all indices 0..63.  The code
computes `intersection |= (1 << i)` with a 32-bit `int` shift, so index 32
collides with index 0 (`cppShift 32 = cppShift 0 = 1`).  Evaluating the
failing input: with 33 triggered topics, subscriber 2 belongs only to the
topic at batch index 32 ("m32", sole message "Y"), but receives the cached
payload "X" that belongs to the subset {index 0}, because both subsets are
cached under key 1. -/
theorem intersection_bitmask_collision_at_33_topics :
    cppShift 32 = cppShift 0 ∧
    c6state.triggeredTopics.length = 33 ∧
    (getTopic c6state 2).name = "m32" ∧
    (getTopic c6state 2).subs = [2] ∧
    (getTopic c6state 2).messages = [(32, "Y")] ∧
    (getTopic c6state 1).messages = [(0, "X")] ∧
    (drain 4 c6state).map (fun p => p.2.getD 1 ⟨none, "", false⟩) =
      some ⟨some 2, "X", false⟩ := by
  refine ⟨by decide, by decide, by decide, by decide, by decide, by decide, by decide⟩

/-! ### Claim C1, counterexample -/

/-- C1 counterexample: subscriber 5 subscribes to "a" and a publish records
`min = 5`; subscriber 3 then subscribes to the same topic before the drain.
During the drain the stale minimum causes a first, spurious delivery to 5
(empty payload), and 5 is delivered again when its cursor position is
reached: the sink is invoked twice for subscriber 5, refuting "exactly once
per distinct subscriber". -/
theorem drain_double_delivery_after_late_subscribe :
    (getTopic c1cex 1).subs = [3, 5] ∧
    c1cex.triggeredTopics = [1] ∧
    (drain 3 c1cex).map (fun p => p.2.countP (fun d => d.target == some 5)) =
      some 2 ∧
    (drain 3 c1cex).map (fun p => p.2.map (fun d => (d.target, d.payload))) =
      some [(some 5, ""), (some 3, "M"), (some 5, "M")] := by
  refine ⟨by decide, by decide, by decide, by decide⟩

/-! ### Claim C5, counterexample -/

/-- C5 counterexample: subscribers 3 and 5 of topic "a" are matched by the
identical subset {node "a"} in one drain, but the published payload is the
empty string, which the cache check (`length() == 0`) cannot distinguish
from an absent entry: both deliveries construct the payload (`built = true`
twice), refuting "the second delivery reuses the cached payload ...
including the case where the constructed payload is the empty string" and
the bound constructions <= distinct matched subsets. -/
theorem empty_payload_rebuilt_every_delivery :
    (getTopic c5cex 1).subs = [3, 5] ∧
    c5cex.triggeredTopics = [1] ∧
    (drain 3 c5cex).map (fun p => p.2) =
      some [⟨some 3, "", true⟩, ⟨some 5, "", true⟩] := by
  refine ⟨by decide, by decide, by decide⟩

/-! ### Claim C10, counterexample -/

/-- C10 counterexample: subscribing subscriber 7 to "a/b" twice leaves the
tree unchanged but appends the terminal node (index 2) to the subscriber's
`subscriptions` list a second time: the list is [2, 2] after the second call
versus [2] after the first, so the subscriber state is not idempotent. -/
theorem resubscribe_duplicates_subscriptions_entry :
    (subscribe (subscribe TopicTree.init "a/b" 7 []).1 "a/b" 7
        (subscribe TopicTree.init "a/b" 7 []).2).2 = [2, 2] ∧
    (subscribe TopicTree.init "a/b" 7 []).2 = [2] ∧
    (subscribe (subscribe TopicTree.init "a/b" 7 []).1 "a/b" 7
        (subscribe TopicTree.init "a/b" 7 []).2).1 =
      (subscribe TopicTree.init "a/b" 7 []).1 := by
  refine ⟨by decide, by decide, by decide⟩

/-! ### Claim C3, counterexample -/

/-- C3 counterexample: with subscriber 5 subscribed to "a/#", node 2 is the
"#" node; after `publish "a" "M"` (one segment, zero segments remaining for
the `#`) that node's message map is empty — the payload was not stored on
it, refuting the claim (the exact-match node "a" received the payload
instead, see `drain_nonterminating_on_empty_subscriber_set` for what happens
next). -/
theorem terminating_wildcard_misses_zero_segments :
    (getTopic (subscribe TopicTree.init "a/#" 5 []).1 2).name = "#" ∧
    (getTopic (subscribe TopicTree.init "a/#" 5 []).1 2).subs = [5] ∧
    (getTopic (publish (subscribe TopicTree.init "a/#" 5 []).1 "a" "M") 2).messages
      = [] ∧
    (getTopic (publish (subscribe TopicTree.init "a/#" 5 []).1 "a" "M") 1).messages
      = [(0, "M")] := by
  refine ⟨by decide, by decide, by decide, by decide⟩

end TopicTreeModel

namespace TopicTreeModel

set_option maxRecDepth 1000000
set_option maxHeartbeats 2000000

/-! ### Claim C3, amended -/

/-- C3 (amended): a terminating wildcard matches one or more remaining
segments, not zero.  For every subscriber `s` subscribed to pattern "a/#"
(node 2 is the "#" node): a publish of "a" stores nothing on the "#" node;
publishes of "a/b" and "a/b/c" store the payload on the "#" node and the
next drain delivers exactly one invocation `(s, payload)`. -/
theorem terminating_wildcard_matches_one_or_more_segments (s : Nat) :
    (getTopic (subscribe TopicTree.init "a/#" s []).1 2).name = "#" ∧
    (getTopic (subscribe TopicTree.init "a/#" s []).1 2).subs = [s] ∧
    (getTopic (publish (subscribe TopicTree.init "a/#" s []).1 "a" "M") 2).messages
      = [] ∧
    (getTopic (publish (subscribe TopicTree.init "a/#" s []).1 "a/b" "M") 2).messages
      = [(0, "M")] ∧
    (drain 1 (publish (subscribe TopicTree.init "a/#" s []).1 "a/b" "M")).map
      (fun p => p.2) = some [⟨some s, "M", true⟩] ∧
    (getTopic (publish (subscribe TopicTree.init "a/#" s []).1 "a/b/c" "M") 2).messages
      = [(0, "M")] ∧
    (drain 1 (publish (subscribe TopicTree.init "a/#" s []).1 "a/b/c" "M")).map
      (fun p => p.2) = some [⟨some s, "M", true⟩] := by
  have hb : publish (subscribe TopicTree.init "a/#" s []).1 "a/b" "M" =
      ({ topics := [⟨"", none, false, [("a", 1)], none, none, [], []⟩,
           ⟨"a", some 0, false, [("#", 2)], none, some 2, [], []⟩,
           ⟨"#", some 1, true, [], none, none, [(0, "M")], [s]⟩],
         messageId := 1, triggeredTopics := [2], minSub := some s } : TopicTree) := rfl
  have hc : publish (subscribe TopicTree.init "a/#" s []).1 "a/b/c" "M" =
      ({ topics := [⟨"", none, false, [("a", 1)], none, none, [], []⟩,
           ⟨"a", some 0, false, [("#", 2)], none, some 2, [], []⟩,
           ⟨"#", some 1, true, [], none, none, [(0, "M")], [s]⟩],
         messageId := 1, triggeredTopics := [2], minSub := some s } : TopicTree) := rfl
  have hdrain :
      (drain 1
        ({ topics := [⟨"", none, false, [("a", 1)], none, none, [], []⟩,
             ⟨"a", some 0, false, [("#", 2)], none, some 2, [], []⟩,
             ⟨"#", some 1, true, [], none, none, [(0, "M")], [s]⟩],
           messageId := 1, triggeredTopics := [2], minSub := some s } : TopicTree)).map
        (fun p => p.2) = some [⟨some s, "M", true⟩] := by
    unfold drain
    rw [if_neg (by simp)]
    have h0 :
        initMergeState
          ({ topics := [⟨"", none, false, [("a", 1)], none, none, [], []⟩,
               ⟨"a", some 0, false, [("#", 2)], none, some 2, [], []⟩,
               ⟨"#", some 1, true, [], none, none, [(0, "M")], [s]⟩],
             messageId := 1, triggeredTopics := [2], minSub := some s } : TopicTree) =
          ⟨[([s], [(0, "M")])], 1, some s, []⟩ := rfl
    rw [h0, drainLoop_single]
    have hbp : buildPayload [[(0, "M")]] = "M" := by decide
    rw [hbp]
    rfl
  exact ⟨rfl, rfl, rfl, by rw [hb]; rfl, by rw [hb]; exact hdrain,
    by rw [hc]; rfl, by rw [hc]; exact hdrain⟩

/-! ### Claim C8 -/

/-- C8: the single-level wildcard matches exactly one segment.  For every
subscriber `s` of pattern "a/+/c" (node 3 is the terminal "c" node): a
publish of "a/b/c" stores the payload on node 3 and the next drain delivers
`(s, payload)` exactly once; a publish of "a/b/x/c" stores nothing on node 3,
triggers nothing, and drain performs no deliveries; a publish of "a/c"
stores nothing on node 3 and no completed drain ever delivers anything (that
publish triggers the subscriber-less "+" node, so the merge loop in fact
never terminates, see C2). -/
theorem single_level_wildcard_matches_exactly_one_segment (s : Nat) :
    (getTopic (subscribe TopicTree.init "a/+/c" s []).1 3).name = "c" ∧
    (getTopic (subscribe TopicTree.init "a/+/c" s []).1 3).subs = [s] ∧
    (getTopic (publish (subscribe TopicTree.init "a/+/c" s []).1 "a/b/c" "M") 3).messages
      = [(0, "M")] ∧
    (drain 1 (publish (subscribe TopicTree.init "a/+/c" s []).1 "a/b/c" "M")).map
      (fun p => p.2) = some [⟨some s, "M", true⟩] ∧
    (getTopic (publish (subscribe TopicTree.init "a/+/c" s []).1 "a/b/x/c" "M") 3).messages
      = [] ∧
    (∀ fuel, drain fuel (publish (subscribe TopicTree.init "a/+/c" s []).1 "a/b/x/c" "M") =
      some (publish (subscribe TopicTree.init "a/+/c" s []).1 "a/b/x/c" "M", [])) ∧
    (getTopic (publish (subscribe TopicTree.init "a/+/c" s []).1 "a/c" "M") 3).messages
      = [] ∧
    ∀ fuel, drain fuel (publish (subscribe TopicTree.init "a/+/c" s []).1 "a/c" "M") =
      none := by
  refine ⟨rfl, rfl, rfl, ?_, rfl, ?_, rfl, ?_⟩
  · have hb : publish (subscribe TopicTree.init "a/+/c" s []).1 "a/b/c" "M" =
        ({ topics := [⟨"", none, false, [("a", 1)], none, none, [], []⟩,
             ⟨"a", some 0, false, [("+", 2)], some 2, none, [], []⟩,
             ⟨"+", some 1, false, [("c", 3)], none, none, [], []⟩,
             ⟨"c", some 2, true, [], none, none, [(0, "M")], [s]⟩],
           messageId := 1, triggeredTopics := [3], minSub := some s } : TopicTree) := rfl
    rw [hb]
    unfold drain
    rw [if_neg (by simp)]
    have h0 :
        initMergeState
          ({ topics := [⟨"", none, false, [("a", 1)], none, none, [], []⟩,
               ⟨"a", some 0, false, [("+", 2)], some 2, none, [], []⟩,
               ⟨"+", some 1, false, [("c", 3)], none, none, [], []⟩,
               ⟨"c", some 2, true, [], none, none, [(0, "M")], [s]⟩],
             messageId := 1, triggeredTopics := [3], minSub := some s } : TopicTree) =
          ⟨[([s], [(0, "M")])], 1, some s, []⟩ := rfl
    rw [h0, drainLoop_single]
    have hbp : buildPayload [[(0, "M")]] = "M" := by decide
    rw [hbp]
    rfl
  · intro fuel
    have hx : publish (subscribe TopicTree.init "a/+/c" s []).1 "a/b/x/c" "M" =
        ({ topics := [⟨"", none, false, [("a", 1)], none, none, [], []⟩,
             ⟨"a", some 0, false, [("+", 2)], some 2, none, [], []⟩,
             ⟨"+", some 1, false, [("c", 3)], none, none, [], []⟩,
             ⟨"c", some 2, false, [], none, none, [], [s]⟩],
           messageId := 1, triggeredTopics := [], minSub := none } : TopicTree) := rfl
    rw [hx]
    unfold drain
    rw [if_pos (by simp)]
  · intro fuel
    have hy : publish (subscribe TopicTree.init "a/+/c" s []).1 "a/c" "M" =
        ({ topics := [⟨"", none, false, [("a", 1)], none, none, [], []⟩,
             ⟨"a", some 0, false, [("+", 2)], some 2, none, [], []⟩,
             ⟨"+", some 1, true, [("c", 3)], none, none, [(0, "M")], []⟩,
             ⟨"c", some 2, false, [], none, none, [], [s]⟩],
           messageId := 1, triggeredTopics := [2], minSub := none } : TopicTree) := rfl
    rw [hy]
    unfold drain
    rw [if_neg (by simp)]
    have h0 :
        initMergeState
          ({ topics := [⟨"", none, false, [("a", 1)], none, none, [], []⟩,
               ⟨"a", some 0, false, [("+", 2)], some 2, none, [], []⟩,
               ⟨"+", some 1, true, [("c", 3)], none, none, [(0, "M")], []⟩,
               ⟨"c", some 2, false, [], none, none, [], [s]⟩],
             messageId := 1, triggeredTopics := [2], minSub := none } : TopicTree) =
          ⟨[([], [(0, "M")])], 1, none, []⟩ := rfl
    rw [h0]
    rw [drainLoop_none_of_all_empty fuel _ [] (by decide) (by decide)]
    rfl

end TopicTreeModel

namespace TopicTreeModel

set_option maxRecDepth 1000000

/-! ### Claim C7: drain resets all per-node transient state -/

theorem clearTopic_clears (tt : TopicTree) (id : Nat) :
    (getTopic (clearTopic tt id) id).messages = [] ∧
      (getTopic (clearTopic tt id) id).triggered = false := by
  unfold clearTopic
  rw [getTopic_setTopic_self]
  split
  · exact ⟨rfl, rfl⟩
  · exact ⟨rfl, rfl⟩

theorem clearTopic_keeps (tt : TopicTree) (i j : Nat)
    (h : (getTopic tt j).messages = [] ∧ (getTopic tt j).triggered = false) :
    (getTopic (clearTopic tt i) j).messages = [] ∧
      (getTopic (clearTopic tt i) j).triggered = false := by
  by_cases hij : i = j
  · subst hij
    exact clearTopic_clears tt i
  · unfold clearTopic
    rw [getTopic_setTopic_ne tt hij]
    exact h

theorem clearFold_keeps (L : List Nat) :
    ∀ (tt : TopicTree) (j : Nat),
      (getTopic tt j).messages = [] ∧ (getTopic tt j).triggered = false →
      (getTopic (L.foldl clearTopic tt) j).messages = [] ∧
        (getTopic (L.foldl clearTopic tt) j).triggered = false := by
  induction L with
  | nil => intro tt j h; exact h
  | cons a L ih =>
    intro tt j h
    rw [List.foldl_cons]
    exact ih (clearTopic tt a) j (clearTopic_keeps tt a j h)

theorem clearFold_clears (L : List Nat) :
    ∀ (tt : TopicTree) (id : Nat), id ∈ L →
      (getTopic (L.foldl clearTopic tt) id).messages = [] ∧
        (getTopic (L.foldl clearTopic tt) id).triggered = false := by
  induction L with
  | nil => intro tt id h; cases h
  | cons a L ih =>
    intro tt id h
    rw [List.foldl_cons]
    rcases List.mem_cons.mp h with rfl | hmem
    · exact clearFold_keeps L (clearTopic tt id) id (clearTopic_clears tt id)
    · exact ih (clearTopic tt a) id hmem

/-- C7: after any completed drain call, every node that was in the triggered
batch has an empty message mapping and a false triggered flag, the batch
list is empty, and an immediately following second drain (with any fuel, in
particular with no intervening publish) returns the same state with no
deliveries. -/
theorem drain_resets_batch_state (fuel : Nat) (tt tt1 : TopicTree)
    (ds : List Deliv) (h : drain fuel tt = some (tt1, ds)) :
    (∀ id ∈ tt.triggeredTopics,
        (getTopic tt1 id).messages = [] ∧ (getTopic tt1 id).triggered = false) ∧
      tt1.triggeredTopics = [] ∧
      ∀ fuel1, drain fuel1 tt1 = some (tt1, []) := by
  unfold drain at h
  by_cases h0 : tt.triggeredTopics.length = 0
  · rw [if_pos h0] at h
    obtain ⟨rfl, rfl⟩ : tt = tt1 ∧ [] = ds := by
      have := Option.some.inj h
      exact ⟨congrArg Prod.fst this, congrArg Prod.snd this⟩
    have hnil : tt.triggeredTopics = [] := List.length_eq_zero.mp h0
    refine ⟨?_, hnil, ?_⟩
    · intro id hid
      rw [hnil] at hid
      cases hid
    · intro fuel1
      unfold drain
      rw [if_pos h0]
  · rw [if_neg h0] at h
    obtain ⟨p, hp, heq⟩ := Option.map_eq_some'.mp h
    have htt1 : tt1 = { tt.triggeredTopics.foldl clearTopic tt with
        triggeredTopics := [], minSub := p.1.minIt } :=
      (congrArg Prod.fst heq).symm
    have htrig : tt1.triggeredTopics = [] := by rw [htt1]
    refine ⟨?_, htrig, ?_⟩
    · intro id hid
      have hbase := clearFold_clears tt.triggeredTopics tt id hid
      rw [htt1]
      exact hbase
    · intro fuel1
      unfold drain
      rw [if_pos (by simp [htrig])]

/-- Witness for C7 at a concrete input: one subscriber of "a", one publish,
drain with fuel 3 completes; the hypothesis of `drain_resets_batch_state` is
discharged by evaluation. -/
theorem drain_resets_batch_state_witness :
    (∀ id ∈ c7input.triggeredTopics,
        (getTopic c7after id).messages = [] ∧
          (getTopic c7after id).triggered = false) ∧
      c7after.triggeredTopics = [] ∧
      ∀ fuel1, drain fuel1 c7after = some (c7after, []) :=
  drain_resets_batch_state 3 c7input c7after [⟨some 5, "x", true⟩] (by decide)

end TopicTreeModel

namespace TopicTreeModel


/-! ### Sorted-list infrastructure for the merge proof -/
theorem contains_eq (l : List Nat) (a : Nat) : l.contains a = decide (a ∈ l) := by
  simp [List.contains]
theorem mem_insertSorted (x y : Nat) (l : List Nat) :
    y ∈ insertSorted x l ↔ y = x ∨ y ∈ l := by
  induction l with
  | nil => simp [insertSorted]
  | cons a t ih =>
    unfold insertSorted
    split_ifs with h1 h2
    · simp only [List.mem_cons]
    · subst h2
      simp only [List.mem_cons]
      tauto
    · simp only [List.mem_cons, ih]
      tauto
theorem sorted_insertSorted (x : Nat) (l : List Nat)
    (h : List.Sorted (· < ·) l) : List.Sorted (· < ·) (insertSorted x l) := by
  induction l with
  | nil => simp [insertSorted]
  | cons a t ih =>
    have ha : ∀ y ∈ t, a < y := (List.sorted_cons.mp h).1
    have ht : List.Sorted (· < ·) t := (List.sorted_cons.mp h).2
    unfold insertSorted
    split_ifs with h1 h2
    · refine List.sorted_cons.mpr ⟨?_, h⟩
      intro y hy
      rcases List.mem_cons.mp hy with rfl | hyt
      · exact h1
      · exact h1.trans (ha y hyt)
    · exact h
    · refine List.sorted_cons.mpr ⟨?_, ih ht⟩
      intro y hy
      rcases (mem_insertSorted x y t).mp hy with rfl | hyt
      · omega
      · exact ha y hyt
theorem mem_foldr_insertSorted (l acc : List Nat) (y : Nat) :
    y ∈ l.foldr insertSorted acc ↔ y ∈ l ∨ y ∈ acc := by
  induction l with
  | nil => simp
  | cons a t ih =>
    simp only [List.foldr_cons, mem_insertSorted, ih, List.mem_cons]
    tauto
theorem sorted_foldr_insertSorted (l acc : List Nat)
    (h : List.Sorted (· < ·) acc) :
    List.Sorted (· < ·) (l.foldr insertSorted acc) := by
  induction l with
  | nil => exact h
  | cons a t ih => exact sorted_insertSorted _ _ ih
theorem mem_unionSorted (ls : List (List Nat)) (y : Nat) :
    y ∈ unionSorted ls ↔ ∃ l ∈ ls, y ∈ l := by
  unfold unionSorted
  induction ls with
  | nil => simp
  | cons l t ih =>
    simp only [List.foldr_cons, mem_foldr_insertSorted, ih]
    constructor
    · rintro (h | ⟨l1, h1, h2⟩)
      · exact ⟨l, List.mem_cons_self _ _, h⟩
      · exact ⟨l1, List.mem_cons_of_mem _ h1, h2⟩
    · rintro ⟨l1, h1, h2⟩
      rcases List.mem_cons.mp h1 with rfl | h1
      · exact Or.inl h2
      · exact Or.inr ⟨l1, h1, h2⟩
theorem sorted_unionSorted (ls : List (List Nat)) :
    List.Sorted (· < ·) (unionSorted ls) := by
  unfold unionSorted
  induction ls with
  | nil => simp
  | cons l t ih => exact sorted_foldr_insertSorted _ _ ih
/-- The head of a sorted list is a lower bound of its members. -/
theorem head_le_of_sorted_mem {l : List Nat} (hs : List.Sorted (· < ·) l)
    {x h : Nat} (hx : x ∈ l) (hh : l.head? = some h) : h ≤ x := by
  cases l with
  | nil => cases hx
  | cons a t =>
    obtain rfl : a = h := by simpa using hh
    rcases List.mem_cons.mp hx with rfl | hxt
    · exact Nat.le_refl x
    · exact Nat.le_of_lt ((List.sorted_cons.mp hs).1 x hxt)
/-- Filtering by membership in the empty list empties a list. -/
theorem filter_contains_nil (l : List Nat) :
    l.filter (fun x => List.contains [] x) = [] := by
  simp
/-- Splitting off the minimum: if `m ∈ l`, every element of `rest` exceeds
`m`, and `l` is sorted, then filtering `l` by membership in `m :: rest`
yields `m` followed by the filter by membership in `rest`. -/
theorem filter_contains_cons_of_mem {l : List Nat} (hs : List.Sorted (· < ·) l)
    {m : Nat} {rest : List Nat} (hm : m ∈ l) (hrest : ∀ x ∈ rest, m < x) :
    l.filter (fun x => List.contains (m :: rest) x) =
      m :: l.filter (fun x => List.contains rest x) := by
  induction l with
  | nil => cases hm
  | cons a t ih =>
    have ha : ∀ y ∈ t, a < y := (List.sorted_cons.mp hs).1
    have ht : List.Sorted (· < ·) t := (List.sorted_cons.mp hs).2
    by_cases hma : a = m
    · subst hma
      have hnr : a ∉ rest := fun hc => absurd (hrest a hc) (by omega)
      have hfa : List.contains (a :: rest) a = true := by
        rw [contains_eq]
        simp
      have hfa2 : List.contains rest a = false := by
        rw [contains_eq]
        simpa using hnr
      rw [List.filter_cons_of_pos hfa, List.filter_cons_of_neg (by rw [hfa2]; simp)]
      congr 1
      apply List.filter_congr
      intro x hx
      have hxa : a < x := ha x hx
      rw [contains_eq, contains_eq]
      have : (x ∈ a :: rest) ↔ x ∈ rest := by
        simp only [List.mem_cons]
        constructor
        · rintro (rfl | h)
          · omega
          · exact h
        · exact Or.inr
      simp only [this]
    · have hmt : m ∈ t := by
        rcases List.mem_cons.mp hm with rfl | h
        · exact absurd rfl hma
        · exact h
      have ham : a < m := ha m hmt
      have hfr : List.contains rest a = false := by
        rw [contains_eq]
        simp only [decide_eq_false_iff_not]
        intro hc
        exact absurd (hrest a hc) (by omega)
      have hfa : List.contains (m :: rest) a = false := by
        rw [contains_eq]
        simp only [decide_eq_false_iff_not, List.mem_cons]
        rintro (rfl | hc)
        · omega
        · exact absurd (hrest a hc) (by omega)
      rw [List.filter_cons_of_neg (by rw [hfa]; simp),
        List.filter_cons_of_neg (by rw [hfr]; simp)]
      exact ih ht hmt
/-- If `m ∉ l`, the filters by membership in `m :: rest` and in `rest`
agree on `l`. -/
theorem filter_contains_cons_of_not_mem {l : List Nat} {m : Nat}
    {rest : List Nat} (hm : m ∉ l) :
    l.filter (fun x => List.contains (m :: rest) x) =
      l.filter (fun x => List.contains rest x) := by
  apply List.filter_congr
  intro x hx
  rw [contains_eq, contains_eq]
  have : (x ∈ m :: rest) ↔ x ∈ rest := by
    simp only [List.mem_cons]
    constructor
    · rintro (rfl | h)
      · exact absurd hx hm
      · exact h
    · exact Or.inr
  simp only [this]
/-! ### Lemmas about `optMin` folds -/
theorem optLe_refl (a : Option Nat) : optLe a a = true := by
  cases a <;> simp [optLe, optLt]
theorem optLe_none_right (a : Option Nat) : optLe a none = true := by
  cases a <;> simp [optLe, optLt]
theorem optLe_some_iff (a b : Nat) : optLe (some a) (some b) = true ↔ a ≤ b := by
  simp [optLe, optLt]
theorem optLe_none_left_iff (b : Option Nat) : optLe none b = true ↔ b = none := by
  cases b <;> simp [optLe, optLt]
theorem optLe_trans {a b c : Option Nat} (h1 : optLe a b = true)
    (h2 : optLe b c = true) : optLe a c = true := by
  cases a <;> cases b <;> cases c <;>
    simp_all [optLe, optLt] <;> omega
theorem optLe_antisymm {a b : Option Nat} (h1 : optLe a b = true)
    (h2 : optLe b a = true) : a = b := by
  cases a <;> cases b <;> simp_all [optLe, optLt] <;> omega
theorem optMin_eq_or (a b : Option Nat) : optMin a b = a ∨ optMin a b = b := by
  unfold optMin
  split_ifs <;> tauto
theorem optMin_le_left (a b : Option Nat) : optLe (optMin a b) a = true := by
  unfold optMin
  split_ifs with h
  · cases a <;> cases b <;> simp_all [optLe, optLt] <;> omega
  · exact optLe_refl a
theorem optMin_le_right (a b : Option Nat) : optLe (optMin a b) b = true := by
  unfold optMin
  split_ifs with h
  · exact optLe_refl b
  · cases a <;> cases b <;> simp_all [optLe, optLt] <;> omega
theorem foldl_optMin_le_init (os : List (Option Nat)) :
    ∀ a, optLe (os.foldl optMin a) a = true := by
  induction os with
  | nil => intro a; exact optLe_refl a
  | cons o t ih =>
    intro a
    rw [List.foldl_cons]
    exact optLe_trans (ih (optMin a o)) (optMin_le_left a o)
theorem foldl_optMin_le_mem (os : List (Option Nat)) :
    ∀ a, ∀ x ∈ os, optLe (os.foldl optMin a) x = true := by
  induction os with
  | nil => intro a x hx; cases hx
  | cons o t ih =>
    intro a x hx
    rw [List.foldl_cons]
    rcases List.mem_cons.mp hx with rfl | hxt
    · exact optLe_trans (foldl_optMin_le_init t (optMin a x)) (optMin_le_right a x)
    · exact ih (optMin a o) x hxt
theorem foldl_optMin_mem (os : List (Option Nat)) :
    ∀ a, os.foldl optMin a = a ∨ os.foldl optMin a ∈ os := by
  induction os with
  | nil => intro a; exact Or.inl rfl
  | cons o t ih =>
    intro a
    rw [List.foldl_cons]
    rcases ih (optMin a o) with h | h
    · rcases optMin_eq_or a o with h1 | h1
      · rw [h, h1]
        exact Or.inl rfl
      · rw [h, h1]
        exact Or.inr (List.mem_cons_self _ _)
    · exact Or.inr (List.mem_cons_of_mem _ h)
/-! ### Injectivity of the intersection key for at most 31 topics -/
theorem lor_eq_or (a b : Nat) : a.lor b = a ||| b := rfl
theorem cppShift_eq_pow {i : Nat} (h : i ≤ 30) : cppShift i = 2 ^ i := by
  unfold cppShift
  rw [Nat.mod_eq_of_lt (by omega), if_neg (by omega)]
theorem testBit_flag_contrib {b : Bool} {i0 j : Nat} (h0 : i0 ≤ 30)
    (hne : j ≠ i0) : (if b = true then cppShift i0 else 0).testBit j = false := by
  cases b
  · simp
  · rw [if_pos rfl, cppShift_eq_pow h0, Nat.testBit_two_pow_of_ne (by omega)]
theorem testBit_encodeFlagsFrom_lt (bs : List Bool) :
    ∀ (i0 j : Nat), i0 + bs.length ≤ 31 → j < i0 →
      (encodeFlagsFrom i0 bs).testBit j = false := by
  induction bs with
  | nil => intro i0 j _ _; simp [encodeFlagsFrom]
  | cons b t ih =>
    intro i0 j hlen hj
    have hlen' : i0 + 1 + t.length ≤ 31 := by
      simp only [List.length_cons] at hlen
      omega
    simp only [encodeFlagsFrom, lor_eq_or, Nat.testBit_lor]
    rw [ih (i0 + 1) j hlen' (by omega),
      testBit_flag_contrib (by omega) (by omega)]
    rfl
theorem testBit_encodeFlagsFrom_head (b : Bool) (t : List Bool) (i0 : Nat)
    (hlen : i0 + (b :: t).length ≤ 31) :
    (encodeFlagsFrom i0 (b :: t)).testBit i0 = b := by
  have hlen' : i0 + 1 + t.length ≤ 31 := by
    simp only [List.length_cons] at hlen
    omega
  simp only [encodeFlagsFrom, lor_eq_or, Nat.testBit_lor]
  rw [testBit_encodeFlagsFrom_lt t (i0 + 1) i0 hlen' (by omega)]
  cases b
  · simp
  · rw [if_pos rfl, cppShift_eq_pow (by omega)]
    simp [Nat.testBit_two_pow_self]
theorem encodeFlagsFrom_inj (bs1 : List Bool) :
    ∀ (bs2 : List Bool) (i0 : Nat), bs1.length = bs2.length →
      i0 + bs1.length ≤ 31 →
      encodeFlagsFrom i0 bs1 = encodeFlagsFrom i0 bs2 → bs1 = bs2 := by
  induction bs1 with
  | nil =>
    intro bs2 i0 hlen _ _
    exact (List.length_eq_zero.mp hlen.symm).symm
  | cons b1 t1 ih =>
    intro bs2 i0 hlen hbound henc
    cases bs2 with
    | nil => simp at hlen
    | cons b2 t2 =>
      have hlen2 : t1.length = t2.length := by simpa using hlen
      have hbound' : i0 + 1 + t1.length ≤ 31 := by
        simp only [List.length_cons] at hbound
        omega
      have hbound2 : i0 + (b2 :: t2).length ≤ 31 := by
        simp only [List.length_cons] at hbound ⊢
        omega
      have hb : b1 = b2 := by
        have h1 := testBit_encodeFlagsFrom_head b1 t1 i0 hbound
        have h2 := testBit_encodeFlagsFrom_head b2 t2 i0 hbound2
        rw [henc] at h1
        rw [h1] at h2
        exact h2
      subst hb
      have htail : encodeFlagsFrom (i0 + 1) t1 = encodeFlagsFrom (i0 + 1) t2 := by
        apply Nat.eq_of_testBit_eq
        intro j
        by_cases hj : j < i0 + 1
        · rw [testBit_encodeFlagsFrom_lt t1 (i0 + 1) j hbound' hj,
            testBit_encodeFlagsFrom_lt t2 (i0 + 1) j (hlen2 ▸ hbound') hj]
        · have hcontrib : (if b1 = true then cppShift i0 else 0).testBit j = false :=
            testBit_flag_contrib (by omega) (by omega)
          have e1 : (encodeFlagsFrom i0 (b1 :: t1)).testBit j =
              (encodeFlagsFrom (i0 + 1) t1).testBit j := by
            simp only [encodeFlagsFrom, lor_eq_or, Nat.testBit_lor, hcontrib,
              Bool.false_or]
          have e2 : (encodeFlagsFrom i0 (b1 :: t2)).testBit j =
              (encodeFlagsFrom (i0 + 1) t2).testBit j := by
            simp only [encodeFlagsFrom, lor_eq_or, Nat.testBit_lor, hcontrib,
              Bool.false_or]
          rw [← e1, ← e2, henc]
      rw [ih t2 (i0 + 1) hlen2 hbound' htail]
/-! ### Association-list lemmas for the intersection cache -/
theorem lookup_mapAssign_self (k : Nat) (v : String) (l : List (Nat × String)) :
    (mapAssign k v l).lookup k = some v := by
  induction l with
  | nil => simp [mapAssign, List.lookup]
  | cons kv t ih =>
    obtain ⟨k1, v1⟩ := kv
    unfold mapAssign
    split_ifs with h1 h2
    · simp [List.lookup]
    · simp [List.lookup]
    · have hne : (k == k1) = false := by
        simp only [beq_eq_false_iff_ne, ne_eq]
        omega
      simp only [List.lookup, hne]
      exact ih
theorem lookup_mapAssign_ne (k k1 : Nat) (v : String) (l : List (Nat × String))
    (h : k1 ≠ k) : (mapAssign k v l).lookup k1 = l.lookup k1 := by
  have hne : (k1 == k) = false := by
    simp only [beq_eq_false_iff_ne, ne_eq]
    exact h
  induction l with
  | nil => simp [mapAssign, List.lookup, hne]
  | cons kv t ih =>
    obtain ⟨k2, v2⟩ := kv
    unfold mapAssign
    split_ifs with h1 h2
    · simp only [List.lookup, hne]
    · subst h2
      simp only [List.lookup, hne]
    · by_cases hk2 : k1 = k2
      · subst hk2
        simp [List.lookup]
      · have hne2 : (k1 == k2) = false := by
          simp only [beq_eq_false_iff_ne, ne_eq]
          exact hk2
        simp only [List.lookup, hne2]
        exact ih
theorem mem_mapAssign_cases (k : Nat) (v : String) (l : List (Nat × String)) :
    ∀ kv ∈ mapAssign k v l, kv = (k, v) ∨ kv ∈ l := by
  induction l with
  | nil => intro kv h; simpa [mapAssign] using h
  | cons a t ih =>
    obtain ⟨k1, v1⟩ := a
    intro kv h
    unfold mapAssign at h
    split_ifs at h with h1 h2
    · rcases List.mem_cons.mp h with rfl | hmem
      · exact Or.inl rfl
      · exact Or.inr hmem
    · rcases List.mem_cons.mp h with rfl | hmem
      · exact Or.inl rfl
      · exact Or.inr (List.mem_cons_of_mem _ hmem)
    · rcases List.mem_cons.mp h with rfl | hmem
      · exact Or.inr (List.mem_cons_self _ _)
      · rcases ih kv hmem with h3 | h3
        · exact Or.inl h3
        · exact Or.inr (List.mem_cons_of_mem _ h3)
theorem keys_sorted_mapAssign (k : Nat) (v : String) (l : List (Nat × String))
    (h : List.Pairwise (fun a b => a.1 < b.1) l) :
    List.Pairwise (fun a b => a.1 < b.1) (mapAssign k v l) := by
  induction l with
  | nil => simp [mapAssign]
  | cons kv t ih =>
    obtain ⟨k1, v1⟩ := kv
    have h1 := List.pairwise_cons.mp h
    unfold mapAssign
    split_ifs with hc1 hc2
    · refine List.pairwise_cons.mpr ⟨?_, h⟩
      intro b hb
      rcases List.mem_cons.mp hb with rfl | hbt
      · exact hc1
      · exact Nat.lt_trans hc1 (h1.1 b hbt)
    · subst hc2
      exact List.pairwise_cons.mpr ⟨h1.1, h1.2⟩
    · refine List.pairwise_cons.mpr ⟨?_, ih h1.2⟩
      intro b hb
      have hmem := hb
      -- b is either (k, v) or an old entry of t
      rcases mem_mapAssign_cases k v t b hmem with rfl | hbt
      · simp only
        omega
      · exact h1.1 b hbt
theorem mem_of_lookup_eq_some {l : List (Nat × String)} {k : Nat} {v : String}
    (h : l.lookup k = some v) : (k, v) ∈ l := by
  induction l with
  | nil => simp [List.lookup] at h
  | cons a t ih =>
    obtain ⟨k1, v1⟩ := a
    by_cases hk : k = k1
    · subst hk
      simp only [List.lookup, beq_self_eq_true] at h
      obtain rfl := Option.some.inj h
      exact List.mem_cons_self _ _
    · have hne : (k == k1) = false := by
        simp only [beq_eq_false_iff_ne, ne_eq]
        exact hk
      simp only [List.lookup, hne] at h
      exact List.mem_cons_of_mem _ (ih h)
/-! ### Counting and plumbing lemmas for `drainIter` -/
theorem advance_isEmpty_contrib (m : Option Nat) (c : List Nat) :
    ((if !(advanceCursor m c).isEmpty then 1 else 0) : Nat) +
      (if matchesMin m c && c.tail.isEmpty then 1 else 0) =
      if !c.isEmpty then 1 else 0 := by
  cases c with
  | nil => simp [advanceCursor, matchesMin]
  | cons h t =>
    by_cases hm : matchesMin m (h :: t) = true
    · simp only [advanceCursor, hm, if_pos rfl, List.tail_cons]
      cases t with
      | nil => simp
      | cons u w => simp
    · have hm' : matchesMin m (h :: t) = false := by
        exact Bool.eq_false_iff.mpr (fun hc => hm hc)
      simp [advanceCursor, hm']
theorem countP_nonempty_advance (m : Option Nat)
    (topics : List (List Nat × List (Nat × String))) :
    ((topics.map (fun tc => (advanceCursor m tc.1, tc.2))).countP
        (fun tc => !tc.1.isEmpty)) + newlyExhausted m topics =
      topics.countP (fun tc => !tc.1.isEmpty) := by
  induction topics with
  | nil => simp [newlyExhausted]
  | cons tc rest ih =>
    obtain ⟨c, mp⟩ := tc
    unfold newlyExhausted at ih ⊢
    rw [List.map_cons, List.countP_cons, List.countP_cons, List.countP_cons]
    simp only
    have hper := advance_isEmpty_contrib m c
    omega
theorem selectFlags_map (l : List α) (p : α → Bool) (f : α → β) :
    selectFlags (l.map p) (l.map f) = (l.filter p).map f := by
  induction l with
  | nil => simp [selectFlags]
  | cons a t ih =>
    simp only [List.map_cons, selectFlags]
    by_cases hp : p a = true
    · rw [if_pos hp, List.filter_cons_of_pos hp, List.map_cons, ih]
    · rw [if_neg (by simpa using hp), List.filter_cons_of_neg (by simpa using hp), ih]
theorem zipmap_fst (g : List Nat → γ) :
    ∀ (A : List (List Nat)) (B : List (List (Nat × String))), A.length = B.length →
      ((A.zip B).map (fun tc => g tc.1)) = A.map g := by
  intro A
  induction A with
  | nil => intro B h; simp
  | cons a t ih =>
    intro B h
    cases B with
    | nil => simp at h
    | cons b tb =>
      simp only [List.zip_cons_cons, List.map_cons]
      rw [ih tb (by simpa using h)]
theorem zipmap_snd :
    ∀ (A : List (List Nat)) (B : List (List (Nat × String))), A.length = B.length →
      ((A.zip B).map (fun tc => tc.2)) = B := by
  intro A
  induction A with
  | nil =>
    intro B h
    obtain rfl := (List.length_eq_zero.mp h.symm)
    simp
  | cons a t ih =>
    intro B h
    cases B with
    | nil => simp at h
    | cons b tb =>
      simp only [List.zip_cons_cons, List.map_cons]
      rw [ih tb (by simpa using h)]
theorem zipmap_pair (f : List Nat → List Nat) :
    ∀ (A : List (List Nat)) (B : List (List (Nat × String))),
      ((A.zip B).map (fun tc => (f tc.1, tc.2))) = (A.map f).zip B := by
  intro A
  induction A with
  | nil => intro B; simp
  | cons a t ih =>
    intro B
    cases B with
    | nil => simp
    | cons b tb =>
      simp only [List.zip_cons_cons, List.map_cons]
      rw [ih tb]
/-! ### The merge-loop invariant -/
/-! ### Per-topic cursor lemmas for the step -/
theorem matchesMin_filter {l : List Nat} (hs : List.Sorted (· < ·) l)
    {m : Nat} {rest : List Nat} (hrest : ∀ x ∈ rest, m < x) :
    matchesMin (some m) (l.filter (fun x => List.contains (m :: rest) x)) =
      l.contains m := by
  by_cases hm : m ∈ l
  · rw [filter_contains_cons_of_mem hs hm hrest]
    simp [matchesMin, contains_eq, hm]
  · rw [filter_contains_cons_of_not_mem hm]
    rw [contains_eq]
    cases hfc : l.filter (fun x => List.contains rest x) with
    | nil => simp [matchesMin, hm]
    | cons h t =>
      have hh : h ∈ l.filter (fun x => List.contains rest x) := by
        rw [hfc]
        exact List.mem_cons_self _ _
      have hhl : h ∈ l := List.mem_of_mem_filter hh
      have hhm : h ≠ m := by
        rintro rfl
        exact hm hhl
      simp only [matchesMin]
      have : (some h == some m) = false := by
        simp only [beq_eq_false_iff_ne, ne_eq, Option.some.injEq]
        exact hhm
      rw [this]
      simp [hm]
theorem advance_filter {l : List Nat} (hs : List.Sorted (· < ·) l)
    {m : Nat} {rest : List Nat} (hrest : ∀ x ∈ rest, m < x) :
    advanceCursor (some m) (l.filter (fun x => List.contains (m :: rest) x)) =
      l.filter (fun x => List.contains rest x) := by
  unfold advanceCursor
  rw [matchesMin_filter hs hrest]
  by_cases hm : m ∈ l
  · rw [if_pos (by rw [contains_eq]; simpa using hm)]
    rw [filter_contains_cons_of_mem hs hm hrest]
    rfl
  · rw [if_neg (by rw [contains_eq]; simpa using hm)]
    exact filter_contains_cons_of_not_mem hm
/-- The fold that recomputes `nextMin` yields the head of the remaining
union. -/
theorem foldl_optMin_filter_heads (subs0 : List (List Nat)) (rest : List Nat)
    (Hsort : ∀ l ∈ subs0, List.Sorted (· < ·) l)
    (hrest_sorted : List.Sorted (· < ·) rest)
    (hrest_sub : ∀ x ∈ rest, ∃ l ∈ subs0, x ∈ l) :
    ((subs0.map (fun l => (l.filter (fun x => rest.contains x)).head?)).foldl
      optMin none) = rest.head? := by
  cases rest with
  | nil =>
    rcases foldl_optMin_mem
        (subs0.map (fun l => (l.filter (fun x => List.contains [] x)).head?)) none
      with h | h
    · rw [h]
      rfl
    · obtain ⟨l, hl, heq⟩ := List.mem_map.mp h
      rw [← heq, filter_contains_nil]
  | cons u rest1 =>
    obtain ⟨lj, hlj, hulj⟩ := hrest_sub u (List.mem_cons_self _ _)
    have hu_le : ∀ x ∈ u :: rest1, u ≤ x := by
      intro x hx
      rcases List.mem_cons.mp hx with rfl | hx1
      · exact Nat.le_refl x
      · exact Nat.le_of_lt ((List.sorted_cons.mp hrest_sorted).1 x hx1)
    have hmem_head : ∀ l ∈ subs0, ∀ h : Nat,
        (l.filter (fun x => List.contains (u :: rest1) x)).head? = some h →
          u ≤ h := by
      intro l hl h hh
      have hhf : h ∈ l.filter (fun x => List.contains (u :: rest1) x) := by
        cases hfc : l.filter (fun x => List.contains (u :: rest1) x) with
        | nil => rw [hfc] at hh; cases hh
        | cons a t =>
          rw [hfc] at hh
          obtain rfl := Option.some.inj hh
          exact List.mem_cons_self _ _
      have := List.of_mem_filter hhf
      rw [contains_eq] at this
      exact hu_le h (by simpa using this)
    -- some u occurs in the mapped list
    have hju : (lj.filter (fun x => List.contains (u :: rest1) x)).head? = some u := by
      have humem : u ∈ lj.filter (fun x => List.contains (u :: rest1) x) := by
        apply List.mem_filter.mpr
        refine ⟨hulj, ?_⟩
        rw [contains_eq]
        simp
      cases hfc : lj.filter (fun x => List.contains (u :: rest1) x) with
      | nil => rw [hfc] at humem; cases humem
      | cons a t =>
        rw [hfc] at humem
        have hsf : List.Sorted (· < ·)
            (lj.filter (fun x => List.contains (u :: rest1) x)) :=
          List.Pairwise.sublist (List.filter_sublist _) (Hsort lj hlj)
        rw [hfc] at hsf
        have hau : a ≤ u := by
          rcases List.mem_cons.mp humem with rfl | ht
          · exact Nat.le_refl _
          · exact Nat.le_of_lt ((List.sorted_cons.mp hsf).1 u ht)
        have hua : u ≤ a := hmem_head lj hlj a (by rw [hfc]; exact List.head?_cons)
        obtain rfl : a = u := by omega
        rfl
    have hsome_mem : some u ∈ subs0.map
        (fun l => (l.filter (fun x => List.contains (u :: rest1) x)).head?) := by
      apply List.mem_map.mpr
      exact ⟨lj, hlj, hju⟩
    have hle_all : ∀ o ∈ subs0.map
        (fun l => (l.filter (fun x => List.contains (u :: rest1) x)).head?),
        optLe (some u) o = true := by
      intro o ho
      obtain ⟨l, hl, rfl⟩ := List.mem_map.mp ho
      cases hfc : (l.filter (fun x => List.contains (u :: rest1) x)).head? with
      | none => exact optLe_none_right _
      | some h =>
        rw [optLe_some_iff]
        exact hmem_head l hl h hfc
    have hfold_le : optLe
        ((subs0.map (fun l =>
          (l.filter (fun x => List.contains (u :: rest1) x)).head?)).foldl
            optMin none) (some u) = true :=
      foldl_optMin_le_mem _ none (some u) hsome_mem
    rcases foldl_optMin_mem (subs0.map
        (fun l => (l.filter (fun x => List.contains (u :: rest1) x)).head?)) none
      with h | h
    · rw [h] at hfold_le
      rw [optLe_none_left_iff] at hfold_le
      cases hfold_le
    · have hge := hle_all _ h
      have := optLe_antisymm hfold_le hge
      rw [this]
      rfl
/-- `countP` over a zip with a predicate on the first component. -/
theorem countP_zip_fst (p : List Nat → Bool) :
    ∀ (A : List (List Nat)) (B : List (List (Nat × String))),
      A.length = B.length →
      (A.zip B).countP (fun tc => p tc.1) = A.countP p := by
  intro A
  induction A with
  | nil => intro B h; simp
  | cons a t ih =>
    intro B h
    cases B with
    | nil => simp at h
    | cons b tb =>
      simp only [List.zip_cons_cons, List.countP_cons]
      rw [ih tb (by simpa using h)]
theorem forall₂_concat {R : Nat → Deliv → Prop} {l1 : List Nat}
    {l2 : List Deliv} (h : List.Forall₂ R l1 l2) {a : Nat} {b : Deliv}
    (hab : R a b) : List.Forall₂ R (l1 ++ [a]) (l2 ++ [b]) := by
  induction h with
  | nil => simpa using List.Forall₂.cons hab List.Forall₂.nil
  | cons hx _ ih => exact List.Forall₂.cons hx ih
/-! ### Branch characterisations of `drainIter` -/
theorem drainIter_build (st : MergeState)
    (hv : cacheLookup st.cache
      (encodeFlagsFrom 0 (st.topics.map (fun tc => matchesMin st.minIt tc.1))) = "") :
    drainIter st =
      ({ topics := st.topics.map (fun tc => (advanceCursor st.minIt tc.1, tc.2)),
         nonEmpty := st.nonEmpty - (newlyExhausted st.minIt st.topics : Int),
         minIt := ((st.topics.map
           (fun tc => (advanceCursor st.minIt tc.1, tc.2))).map
             (fun tc => tc.1.head?)).foldl optMin none,
         cache := mapAssign
           (encodeFlagsFrom 0 (st.topics.map (fun tc => matchesMin st.minIt tc.1)))
           (buildPayload (selectFlags
             (st.topics.map (fun tc => matchesMin st.minIt tc.1))
             (st.topics.map (fun tc => tc.2)))) st.cache },
       ⟨st.minIt,
        buildPayload (selectFlags
          (st.topics.map (fun tc => matchesMin st.minIt tc.1))
          (st.topics.map (fun tc => tc.2))), true⟩) := by
  unfold drainIter
  simp only [hv, eq_self_iff_true, if_true]
theorem drainIter_cached (st : MergeState)
    (hv : cacheLookup st.cache
      (encodeFlagsFrom 0 (st.topics.map (fun tc => matchesMin st.minIt tc.1))) ≠ "") :
    drainIter st =
      ({ topics := st.topics.map (fun tc => (advanceCursor st.minIt tc.1, tc.2)),
         nonEmpty := st.nonEmpty - (newlyExhausted st.minIt st.topics : Int),
         minIt := ((st.topics.map
           (fun tc => (advanceCursor st.minIt tc.1, tc.2))).map
             (fun tc => tc.1.head?)).foldl optMin none,
         cache := st.cache },
       ⟨st.minIt,
        cacheLookup st.cache
          (encodeFlagsFrom 0 (st.topics.map (fun tc => matchesMin st.minIt tc.1))),
        false⟩) := by
  unfold drainIter
  rw [if_neg hv]
/-! ### The invariant is preserved by one merge iteration -/
theorem payloadFor_congr (subs0 : List (List Nat))
    (msgs0 : List (List (Nat × String))) {s1 s2 : Nat}
    (h : memberFlags s1 subs0 = memberFlags s2 subs0) :
    payloadFor subs0 msgs0 s1 = payloadFor subs0 msgs0 s2 := by
  unfold payloadFor
  rw [h]
theorem memberFlags_length (s : Nat) (subs0 : List (List Nat)) :
    (memberFlags s subs0).length = subs0.length := by
  simp [memberFlags]
theorem mergeInv_step (subs0 : List (List Nat)) (msgs0 : List (List (Nat × String)))
    (Hlen : subs0.length = msgs0.length)
    (Hsort : ∀ l ∈ subs0, List.Sorted (· < ·) l)
    (Hk : subs0.length ≤ 31)
    (done : List Nat) (m : Nat) (rest : List Nat) (st : MergeState)
    (ds : List Deliv)
    (inv : MergeInv subs0 msgs0 done (m :: rest) st ds) :
    MergeInv subs0 msgs0 (done ++ [m]) rest (drainIter st).1
      (ds ++ [(drainIter st).2]) ∧
      (drainIter st).2.target = some m ∧
      (drainIter st).2.payload = payloadFor subs0 msgs0 m := by
  -- order facts about the split of the union
  have hsU : List.Sorted (· < ·) (unionSorted subs0) := sorted_unionSorted subs0
  have hs_all : List.Sorted (· < ·) (done ++ m :: rest) := inv.split_eq ▸ hsU
  have hs_parts := List.pairwise_append.mp hs_all
  have hmr_sorted : List.Sorted (· < ·) (m :: rest) := hs_parts.2.1
  have hrest_gt : ∀ x ∈ rest, m < x := (List.pairwise_cons.mp hmr_sorted).1
  have hrest_sorted : List.Sorted (· < ·) rest := (List.pairwise_cons.mp hmr_sorted).2
  have hm_union : m ∈ unionSorted subs0 := by
    rw [inv.split_eq]
    exact List.mem_append_right _ (List.mem_cons_self _ _)
  have hrest_sub : ∀ x ∈ rest, ∃ l ∈ subs0, x ∈ l := by
    intro x hx
    refine (mem_unionSorted subs0 x).mp ?_
    rw [inv.split_eq]
    exact List.mem_append_right _ (List.mem_cons_of_mem _ hx)
  have hminIt : st.minIt = some m := by
    rw [inv.min_eq]
    rfl
  have hlenA : (subs0.map
      (fun l => l.filter (fun x => (m :: rest).contains x))).length =
      msgs0.length := by
    simp [Hlen]
  -- the four component computations of the iteration
  have hflags : st.topics.map (fun tc => matchesMin (some m) tc.1) =
      memberFlags m subs0 := by
    rw [inv.topics_eq, zipmap_fst (fun l => matchesMin (some m) l) _ _ hlenA,
      List.map_map]
    unfold memberFlags
    apply List.map_congr_left
    intro l hl
    simp only [Function.comp_apply]
    exact matchesMin_filter (Hsort l hl) hrest_gt
  have hmsgsL : st.topics.map (fun tc => tc.2) = msgs0 := by
    rw [inv.topics_eq]
    exact zipmap_snd _ _ hlenA
  have htopics1 : st.topics.map (fun tc => (advanceCursor (some m) tc.1, tc.2)) =
      (subs0.map (fun l => l.filter (fun x => rest.contains x))).zip msgs0 := by
    rw [inv.topics_eq, zipmap_pair (advanceCursor (some m)) _ _]
    congr 1
    rw [List.map_map]
    apply List.map_congr_left
    intro l hl
    simp only [Function.comp_apply]
    exact advance_filter (Hsort l hl) hrest_gt
  have hnextMin : ((st.topics.map
      (fun tc => (advanceCursor (some m) tc.1, tc.2))).map
        (fun tc => tc.1.head?)).foldl optMin none = rest.head? := by
    rw [htopics1, zipmap_fst (fun l => l.head?) _ _ (by simp [Hlen]), List.map_map]
    have hcomp : ((fun (l : List Nat) => l.head?) ∘
        (fun (l : List Nat) => l.filter (fun x => rest.contains x))) =
        (fun (l : List Nat) => (l.filter (fun x => rest.contains x)).head?) := rfl
    rw [hcomp]
    exact foldl_optMin_filter_heads subs0 rest Hsort hrest_sorted hrest_sub
  have hne1 : st.nonEmpty - (newlyExhausted (some m) st.topics : Int) =
      ((st.topics.map (fun tc => (advanceCursor (some m) tc.1, tc.2))).countP
        (fun tc => !tc.1.isEmpty) : Int) := by
    have hN := countP_nonempty_advance (some m) st.topics
    rw [inv.ne_eq]
    omega
  have hmfLen : (memberFlags m subs0).length = subs0.length :=
    memberFlags_length m subs0
  -- the two branches of the cache check
  by_cases hv : cacheLookup st.cache (encodeFlagsFrom 0 (memberFlags m subs0)) = ""
  · -- construction branch
    have hv' : cacheLookup st.cache (encodeFlagsFrom 0
        (st.topics.map (fun tc => matchesMin st.minIt tc.1))) = "" := by
      rw [hminIt, hflags]
      exact hv
    rw [drainIter_build st hv', hminIt]
    simp only [hflags, hmsgsL]
    have hres : buildPayload (selectFlags (memberFlags m subs0) msgs0) =
        payloadFor subs0 msgs0 m := rfl
    refine ⟨?_, by trivial, hres⟩
    refine
      { split_eq := by rw [inv.split_eq, List.append_assoc]; rfl
        topics_eq := htopics1
        min_eq := hnextMin
        ne_eq := by rw [hne1]
        cache_keys := keys_sorted_mapAssign _ _ _ inv.cache_keys
        cache_ok := ?_
        cache_hist := ?_
        ds_eq := forall₂_concat inv.ds_eq ⟨rfl, hres⟩
        ds_built := ?_ }
    · -- cache_ok
      intro kv hkv
      rcases mem_mapAssign_cases _ _ _ kv hkv with rfl | hold
      · by_cases hres0 : payloadFor subs0 msgs0 m = ""
        · left
          rw [← hres] at hres0
          exact hres0
        · right
          refine ⟨memberFlags m subs0, hmfLen, rfl, rfl, m, ?_, rfl⟩
          exact List.mem_append_right _ (List.mem_cons_self _ _)
      · rcases inv.cache_ok kv hold with h0 | ⟨bs, h1, h2, h3, s1, hs1, h4⟩
        · exact Or.inl h0
        · exact Or.inr ⟨bs, h1, h2, h3, s1, List.mem_append_left _ hs1, h4⟩
    · -- cache_hist
      intro s1 hs1 hp1
      rcases List.mem_append.mp hs1 with hs1d | hs1m
      · by_cases hkey : encodeFlagsFrom 0 (memberFlags s1 subs0) =
            encodeFlagsFrom 0 (memberFlags m subs0)
        · have hmf : memberFlags s1 subs0 = memberFlags m subs0 :=
            encodeFlagsFrom_inj _ _ 0
              (by rw [memberFlags_length, memberFlags_length])
              (by rw [memberFlags_length]; omega) hkey
          have hpp : payloadFor subs0 msgs0 s1 = payloadFor subs0 msgs0 m :=
            payloadFor_congr subs0 msgs0 hmf
          rw [hkey, hpp, ← hres, lookup_mapAssign_self]
        · rw [lookup_mapAssign_ne _ _ _ _ hkey]
          exact inv.cache_hist s1 hs1d hp1
      · obtain rfl : s1 = m := by simpa using hs1m
        rw [← hres] at hp1 ⊢
        rw [lookup_mapAssign_self]
    · -- ds_built
      have hlen_ds : done.length = ds.length := List.Forall₂.length_eq inv.ds_eq
      rw [List.zip_append hlen_ds]
      rw [List.pairwise_append]
      refine ⟨inv.ds_built, by simp, ?_⟩
      intro p hp q hq
      obtain rfl : q = (m,
          (⟨some m, buildPayload (selectFlags (memberFlags m subs0) msgs0),
            true⟩ : Deliv)) := by
        simpa using hq
      intro hmf hpne
      exfalso
      obtain ⟨s1, d1⟩ := p
      have hs1 : s1 ∈ done := (List.of_mem_zip hp).1
      have hlook := inv.cache_hist s1 hs1 hpne
      have hkeyeq : encodeFlagsFrom 0 (memberFlags s1 subs0) =
          encodeFlagsFrom 0 (memberFlags m subs0) := by rw [hmf]
      rw [hkeyeq] at hlook
      have hthis : cacheLookup st.cache (encodeFlagsFrom 0 (memberFlags m subs0)) =
          payloadFor subs0 msgs0 s1 := by
        unfold cacheLookup
        rw [hlook]
        rfl
      rw [hv] at hthis
      exact hpne hthis.symm
  · -- cached branch
    have hv' : cacheLookup st.cache (encodeFlagsFrom 0
        (st.topics.map (fun tc => matchesMin st.minIt tc.1))) ≠ "" := by
      rw [hminIt, hflags]
      exact hv
    -- the cached value is the correct payload for m
    obtain ⟨w, hlk⟩ : ∃ w, st.cache.lookup
        (encodeFlagsFrom 0 (memberFlags m subs0)) = some w := by
      cases hlk : st.cache.lookup (encodeFlagsFrom 0 (memberFlags m subs0)) with
      | none =>
        exfalso
        apply hv
        unfold cacheLookup
        rw [hlk]
        rfl
      | some w => exact ⟨w, rfl⟩
    have hcl : cacheLookup st.cache (encodeFlagsFrom 0 (memberFlags m subs0)) = w := by
      unfold cacheLookup
      rw [hlk]
      rfl
    have hwne : w ≠ "" := by
      rw [hcl] at hv
      exact hv
    have hwmem : (encodeFlagsFrom 0 (memberFlags m subs0), w) ∈ st.cache :=
      mem_of_lookup_eq_some hlk
    have hw_eq : w = payloadFor subs0 msgs0 m := by
      rcases inv.cache_ok _ hwmem with h0 | ⟨bs, h1, h2, h3, s1, hs1, h4⟩
      · exact absurd h0 hwne
      · have hmf : bs = memberFlags m subs0 := by
          apply encodeFlagsFrom_inj _ _ 0
          · rw [h1, memberFlags_length]
          · rw [h1]
            omega
          · exact h2.symm
        rw [hmf] at h3
        exact h3
    rw [drainIter_cached st hv', hminIt]
    simp only [hflags, hmsgsL]
    refine ⟨?_, by trivial, by rw [hcl, hw_eq]⟩
    refine
      { split_eq := by rw [inv.split_eq, List.append_assoc]; rfl
        topics_eq := htopics1
        min_eq := hnextMin
        ne_eq := by rw [hne1]
        cache_keys := inv.cache_keys
        cache_ok := ?_
        cache_hist := ?_
        ds_eq := forall₂_concat inv.ds_eq ⟨rfl, by rw [hcl, hw_eq]⟩
        ds_built := ?_ }
    · intro kv hkv
      rcases inv.cache_ok kv hkv with h0 | ⟨bs, h1, h2, h3, s1, hs1, h4⟩
      · exact Or.inl h0
      · exact Or.inr ⟨bs, h1, h2, h3, s1, List.mem_append_left _ hs1, h4⟩
    · intro s1 hs1 hp1
      rcases List.mem_append.mp hs1 with hs1d | hs1m
      · exact inv.cache_hist s1 hs1d hp1
      · obtain rfl : s1 = m := by simpa using hs1m
        rw [hlk, hw_eq]
    · have hlen_ds : done.length = ds.length := List.Forall₂.length_eq inv.ds_eq
      rw [List.zip_append hlen_ds]
      rw [List.pairwise_append]
      refine ⟨inv.ds_built, by simp, ?_⟩
      intro p hp q hq
      obtain rfl : q = (m,
          (⟨some m, cacheLookup st.cache (encodeFlagsFrom 0 (memberFlags m subs0)),
            false⟩ : Deliv)) := by
        simpa using hq
      intro _ _
      rfl
/-! ### Running the merge loop from the invariant to completion -/
theorem mergeInv_run (subs0 : List (List Nat)) (msgs0 : List (List (Nat × String)))
    (Hlen : subs0.length = msgs0.length)
    (Hsort : ∀ l ∈ subs0, List.Sorted (· < ·) l)
    (Hk : subs0.length ≤ 31) :
    ∀ (rem done : List Nat) (st : MergeState) (ds : List Deliv),
      MergeInv subs0 msgs0 done rem st ds →
      ∀ fuel, rem.length ≤ fuel →
      ∃ stF dsF, drainLoop fuel st ds = some (stF, dsF) ∧
        List.Forall₂
          (fun s d => d.target = some s ∧ d.payload = payloadFor subs0 msgs0 s)
          (unionSorted subs0) dsF ∧
        List.Pairwise
          (fun p q => memberFlags p.1 subs0 = memberFlags q.1 subs0 →
            payloadFor subs0 msgs0 p.1 ≠ "" → q.2.built = false)
          ((unionSorted subs0).zip dsF) := by
  intro rem
  induction rem with
  | nil =>
    intro done st ds inv fuel hfuel
    have hunion : unionSorted subs0 = done := by simpa using inv.split_eq
    have hne0 : st.nonEmpty = 0 := by
      rw [inv.ne_eq, inv.topics_eq,
        countP_zip_fst (fun l => !l.isEmpty) _ _ (by simp [Hlen])]
      have hc0 : (subs0.map
          (fun l => l.filter (fun x => List.contains ([] : List Nat) x))).countP
            (fun l => !l.isEmpty) = 0 := by
        rw [List.countP_eq_zero]
        intro a ha
        obtain ⟨l, hl, rfl⟩ := List.mem_map.mp ha
        rw [filter_contains_nil]
        simp
      rw [hc0]
      rfl
    rw [drainLoop_stop fuel st ds hne0]
    refine ⟨st, ds, rfl, ?_, ?_⟩
    · rw [hunion]
      exact inv.ds_eq
    · rw [hunion]
      exact inv.ds_built
  | cons m rest ih =>
    intro done st ds inv fuel hfuel
    have hm_union : m ∈ unionSorted subs0 := by
      rw [inv.split_eq]
      exact List.mem_append_right _ (List.mem_cons_self _ _)
    obtain ⟨lj, hlj, hmlj⟩ := (mem_unionSorted subs0 m).mp hm_union
    have hne : ¬ st.nonEmpty = 0 := by
      rw [inv.ne_eq, inv.topics_eq,
        countP_zip_fst (fun l => !l.isEmpty) _ _ (by simp [Hlen])]
      have hpos : 0 < (subs0.map
          (fun l => l.filter (fun x => (m :: rest).contains x))).countP
            (fun l => !l.isEmpty) := by
        rw [List.countP_pos]
        refine ⟨lj.filter (fun x => (m :: rest).contains x),
          List.mem_map.mpr ⟨lj, hlj, rfl⟩, ?_⟩
        have hmem : m ∈ lj.filter (fun x => (m :: rest).contains x) := by
          apply List.mem_filter.mpr
          refine ⟨hmlj, ?_⟩
          rw [contains_eq]
          simp
        cases hfc : lj.filter (fun x => (m :: rest).contains x) with
        | nil => rw [hfc] at hmem; cases hmem
        | cons a t => rfl
      intro hc
      omega
    obtain ⟨f1, rfl⟩ : ∃ f1, fuel = f1 + 1 := by
      refine ⟨fuel - 1, ?_⟩
      have : 1 ≤ fuel := le_trans (by simp) hfuel
      omega
    rw [drainLoop_step f1 st ds hne]
    obtain ⟨inv1, _, _⟩ :=
      mergeInv_step subs0 msgs0 Hlen Hsort Hk done m rest st ds inv
    exact ih (done ++ [m]) _ _ inv1 f1 (by simpa using hfuel)
/-! ### `buildPayload` refines the specification's merged payload -/
theorem keys_insertNoReplace (l : List (Nat × String)) (k : Nat) (v : String) :
    (insertNoReplace l k v).map Prod.fst = insertSorted k (l.map Prod.fst) := by
  induction l with
  | nil => simp [insertNoReplace, insertSorted]
  | cons a t ih =>
    obtain ⟨k1, v1⟩ := a
    by_cases h1 : k < k1
    · simp [insertNoReplace, insertSorted, h1]
    · by_cases h2 : k = k1
      · simp [insertNoReplace, insertSorted, h1, h2]
      · simp [insertNoReplace, insertSorted, h1, h2, ih]
theorem sortedKeys_insertNoReplace (l : List (Nat × String)) (k : Nat) (v : String)
    (h : List.Sorted (· < ·) (l.map Prod.fst)) :
    List.Sorted (· < ·) ((insertNoReplace l k v).map Prod.fst) := by
  rw [keys_insertNoReplace]
  exact sorted_insertSorted k _ h
theorem lookup_insertNoReplace_self (l : List (Nat × String)) (k : Nat) (v : String)
    (h : List.Sorted (· < ·) (l.map Prod.fst)) :
    (insertNoReplace l k v).lookup k = some ((l.lookup k).getD v) := by
  induction l with
  | nil => simp [insertNoReplace, List.lookup]
  | cons a t ih =>
    obtain ⟨k1, v1⟩ := a
    have hmap : List.map Prod.fst ((k1, v1) :: t) = k1 :: t.map Prod.fst := rfl
    rw [hmap] at h
    have hkeys := List.sorted_cons.mp h
    unfold insertNoReplace
    split_ifs with h1 h2
    · have hnone : ((k1, v1) :: t).lookup k = none := by
        rw [List.lookup_eq_none_iff]
        intro p hp
        rcases List.mem_cons.mp hp with rfl | hpt
        · simp only [bne_iff_ne, ne_eq]
          omega
        · have hgt : k1 < p.1 := hkeys.1 p.1 (List.mem_map.mpr ⟨p, hpt, rfl⟩)
          simp only [bne_iff_ne, ne_eq]
          omega
      rw [hnone]
      simp [List.lookup]
    · subst h2
      simp [List.lookup]
    · have hne : (k == k1) = false := by
        simp only [beq_eq_false_iff_ne, ne_eq]
        omega
      simp only [List.lookup, hne]
      exact ih hkeys.2
theorem lookup_insertNoReplace_ne (l : List (Nat × String)) (k k1 : Nat)
    (v : String) (h : k1 ≠ k) :
    (insertNoReplace l k v).lookup k1 = l.lookup k1 := by
  have hne : (k1 == k) = false := by
    simp only [beq_eq_false_iff_ne, ne_eq]
    exact h
  induction l with
  | nil => simp [insertNoReplace, List.lookup, hne]
  | cons a t ih =>
    obtain ⟨k2, v2⟩ := a
    unfold insertNoReplace
    split_ifs with h1 h2
    · simp only [List.lookup, hne]
    · subst h2
      simp only [List.lookup, hne]
    · by_cases hk2 : k1 = k2
      · subst hk2
        simp [List.lookup]
      · have hne2 : (k1 == k2) = false := by
          simp only [beq_eq_false_iff_ne, ne_eq]
          exact hk2
        simp only [List.lookup, hne2]
        exact ih
theorem sortedKeys_foldl_insert (mp : List (Nat × String)) :
    ∀ acc : List (Nat × String), List.Sorted (· < ·) (acc.map Prod.fst) →
      List.Sorted (· < ·)
        ((mp.foldl (fun a kv => insertNoReplace a kv.1 kv.2) acc).map Prod.fst) := by
  induction mp with
  | nil => intro acc h; exact h
  | cons kv t ih =>
    intro acc h
    rw [List.foldl_cons]
    exact ih _ (sortedKeys_insertNoReplace acc kv.1 kv.2 h)
theorem lookup_foldl_insert (mp : List (Nat × String)) :
    ∀ (acc : List (Nat × String)) (id : Nat),
      List.Sorted (· < ·) (acc.map Prod.fst) →
      (mp.foldl (fun a kv => insertNoReplace a kv.1 kv.2) acc).lookup id =
        match acc.lookup id with
        | some w => some w
        | none => mp.lookup id := by
  induction mp with
  | nil =>
    intro acc id _
    simp only [List.foldl_nil]
    cases h : acc.lookup id <;> rfl
  | cons kv t ih =>
    intro acc id hacc
    obtain ⟨k, v⟩ := kv
    rw [List.foldl_cons]
    rw [ih (insertNoReplace acc k v) id (sortedKeys_insertNoReplace acc k v hacc)]
    by_cases hk : id = k
    · subst hk
      rw [lookup_insertNoReplace_self acc id v hacc]
      cases h : acc.lookup id with
      | none => simp [List.lookup, h]
      | some w => simp [List.lookup, h]
    · rw [lookup_insertNoReplace_ne acc k id v hk]
      have hne : (id == k) = false := by
        simp only [beq_eq_false_iff_ne, ne_eq]
        exact hk
      cases h : acc.lookup id with
      | none => simp [List.lookup, h, hne]
      | some w => simp [List.lookup, h]
theorem sortedKeys_unionKeepFirst (maps : List (List (Nat × String))) :
    List.Sorted (· < ·) ((unionKeepFirst maps).map Prod.fst) := by
  unfold unionKeepFirst
  have hgen : ∀ (ms : List (List (Nat × String))) (acc : List (Nat × String)),
      List.Sorted (· < ·) (acc.map Prod.fst) →
      List.Sorted (· < ·)
        ((ms.foldl (fun acc mp => mp.foldl
          (fun a kv => insertNoReplace a kv.1 kv.2) acc) acc).map Prod.fst) := by
    intro ms
    induction ms with
    | nil => intro acc h; exact h
    | cons mp t ih =>
      intro acc h
      rw [List.foldl_cons]
      exact ih _ (sortedKeys_foldl_insert mp acc h)
  exact hgen maps [] (by simp)
theorem lookup_unionKeepFirst (maps : List (List (Nat × String))) (id : Nat) :
    (unionKeepFirst maps).lookup id =
      (maps.filterMap (fun mp => mp.lookup id)).head? := by
  unfold unionKeepFirst
  have hgen : ∀ (ms : List (List (Nat × String))) (acc : List (Nat × String)),
      List.Sorted (· < ·) (acc.map Prod.fst) →
      (ms.foldl (fun acc mp => mp.foldl
        (fun a kv => insertNoReplace a kv.1 kv.2) acc) acc).lookup id =
        match acc.lookup id with
        | some w => some w
        | none => (ms.filterMap (fun mp => mp.lookup id)).head? := by
    intro ms
    induction ms with
    | nil =>
      intro acc _
      simp only [List.foldl_nil]
      cases h : acc.lookup id <;> rfl
    | cons mp t ih =>
      intro acc hacc
      rw [List.foldl_cons]
      rw [ih _ (sortedKeys_foldl_insert mp acc hacc)]
      rw [lookup_foldl_insert mp acc id hacc]
      cases h : acc.lookup id with
      | some w => simp
      | none =>
        simp only
        cases hm : mp.lookup id with
        | some w => simp [List.filterMap_cons, hm]
        | none => simp [List.filterMap_cons, hm]
  have := hgen maps [] (by simp)
  simpa using this
theorem mem_keys_insertNoReplace (l : List (Nat × String)) (k x : Nat) (v : String) :
    x ∈ (insertNoReplace l k v).map Prod.fst ↔ x = k ∨ x ∈ l.map Prod.fst := by
  rw [keys_insertNoReplace]
  exact mem_insertSorted k x _
theorem mem_keys_foldl_insert (mp : List (Nat × String)) :
    ∀ (acc : List (Nat × String)) (x : Nat),
      (x ∈ (mp.foldl (fun a kv => insertNoReplace a kv.1 kv.2) acc).map Prod.fst ↔
        x ∈ acc.map Prod.fst ∨ x ∈ mp.map Prod.fst) := by
  induction mp with
  | nil => intro acc x; simp
  | cons kv t ih =>
    intro acc x
    rw [List.foldl_cons]
    rw [ih (insertNoReplace acc kv.1 kv.2) x]
    rw [mem_keys_insertNoReplace]
    simp only [List.map_cons, List.mem_cons]
    tauto
theorem mem_keys_unionKeepFirst (maps : List (List (Nat × String))) (x : Nat) :
    x ∈ (unionKeepFirst maps).map Prod.fst ↔
      ∃ mp ∈ maps, x ∈ mp.map Prod.fst := by
  unfold unionKeepFirst
  have hgen : ∀ (ms : List (List (Nat × String))) (acc : List (Nat × String)),
      (x ∈ (ms.foldl (fun acc mp => mp.foldl
        (fun a kv => insertNoReplace a kv.1 kv.2) acc) acc).map Prod.fst ↔
        x ∈ acc.map Prod.fst ∨ ∃ mp ∈ ms, x ∈ mp.map Prod.fst) := by
    intro ms
    induction ms with
    | nil => intro acc; simp
    | cons mp t ih =>
      intro acc
      rw [List.foldl_cons, ih, mem_keys_foldl_insert]
      constructor
      · rintro ((h | h) | h)
        · exact Or.inl h
        · exact Or.inr ⟨mp, List.mem_cons_self _ _, h⟩
        · obtain ⟨mp1, h1, h2⟩ := h
          exact Or.inr ⟨mp1, List.mem_cons_of_mem _ h1, h2⟩
      · rintro (h | ⟨mp1, h1, h2⟩)
        · exact Or.inl (Or.inl h)
        · rcases List.mem_cons.mp h1 with rfl | h1
          · exact Or.inl (Or.inr h2)
          · exact Or.inr ⟨mp1, h1, h2⟩
  have := hgen maps []
  simpa using this
theorem eq_of_sorted_lt_of_mem_iff :
    ∀ (l1 l2 : List Nat), List.Sorted (· < ·) l1 → List.Sorted (· < ·) l2 →
      (∀ x, x ∈ l1 ↔ x ∈ l2) → l1 = l2 := by
  intro l1
  induction l1 with
  | nil =>
    intro l2 _ _ hmem
    cases l2 with
    | nil => rfl
    | cons b t2 =>
      exact absurd ((hmem b).mpr (List.mem_cons_self _ _)) (by simp)
  | cons a t1 ih =>
    intro l2 h1 h2 hmem
    cases l2 with
    | nil => exact absurd ((hmem a).mp (List.mem_cons_self _ _)) (by simp)
    | cons b t2 =>
      have hab : a = b := by
        have ha2 : a ∈ b :: t2 := (hmem a).mp (List.mem_cons_self _ _)
        have hb1 : b ∈ a :: t1 := (hmem b).mpr (List.mem_cons_self _ _)
        rcases List.mem_cons.mp ha2 with h | ha2t
        · exact h
        · rcases List.mem_cons.mp hb1 with h | hb1t
          · exact h.symm
          · have hba : b < a := (List.sorted_cons.mp h2).1 a ha2t
            have hab : a < b := (List.sorted_cons.mp h1).1 b hb1t
            omega
      subst hab
      congr 1
      apply ih t2 (List.sorted_cons.mp h1).2 (List.sorted_cons.mp h2).2
      intro x
      constructor
      · intro hx
        have hax : a < x := (List.sorted_cons.mp h1).1 x hx
        rcases List.mem_cons.mp ((hmem x).mp (List.mem_cons_of_mem _ hx)) with rfl | h
        · omega
        · exact h
      · intro hx
        have hax : a < x := (List.sorted_cons.mp h2).1 x hx
        rcases List.mem_cons.mp ((hmem x).mpr (List.mem_cons_of_mem _ hx)) with rfl | h
        · omega
        · exact h
theorem keys_unionKeepFirst_eq_allIds (maps : List (List (Nat × String))) :
    (unionKeepFirst maps).map Prod.fst = allIds maps := by
  apply eq_of_sorted_lt_of_mem_iff _ _ (sortedKeys_unionKeepFirst maps)
    (sorted_unionSorted _)
  intro x
  rw [mem_keys_unionKeepFirst]
  rw [mem_unionSorted]
  constructor
  · rintro ⟨mp, h1, h2⟩
    exact ⟨mp.map (fun kv => kv.1), List.mem_map.mpr ⟨mp, h1, rfl⟩, by simpa using h2⟩
  · rintro ⟨ks, h1, h2⟩
    obtain ⟨mp, hmp, rfl⟩ := List.mem_map.mp h1
    exact ⟨mp, hmp, by simpa using h2⟩
theorem assoc_reconstruct :
    ∀ l : List (Nat × String), List.Sorted (· < ·) (l.map Prod.fst) →
      l = (l.map Prod.fst).map (fun k => (k, (l.lookup k).getD "")) := by
  intro l
  induction l with
  | nil => intro _; rfl
  | cons a t ih =>
    intro h
    obtain ⟨k, v⟩ := a
    have hmap : List.map Prod.fst ((k, v) :: t) = k :: t.map Prod.fst := rfl
    rw [hmap] at h ⊢
    have hkeys := List.sorted_cons.mp h
    rw [List.map_cons]
    congr 1
    · simp [List.lookup]
    · have ht := ih hkeys.2
      conv_lhs => rw [ht]
      apply List.map_congr_left
      intro x hx
      have hxk : k < x := hkeys.1 x hx
      have hne : (x == k) = false := by
        simp only [beq_eq_false_iff_ne, ne_eq]
        omega
      simp only [List.lookup, hne]
theorem buildPayload_eq_spec (maps : List (List (Nat × String))) :
    buildPayload maps = specMergedPayload maps := by
  unfold buildPayload specMergedPayload
  congr 1
  conv_lhs => rw [assoc_reconstruct (unionKeepFirst maps) (sortedKeys_unionKeepFirst maps)]
  rw [List.map_map, keys_unionKeepFirst_eq_allIds]
  apply List.map_congr_left
  intro id hid
  simp only [Function.comp_apply]
  unfold firstValueFor
  rw [lookup_unionKeepFirst]
/-! ### The initial merge state satisfies the invariant -/
theorem mergeInv_init (tt : TopicTree)
    (Hne : ∀ id ∈ tt.triggeredTopics, (getTopic tt id).subs ≠ [])
    (Hmin : tt.minSub =
      (unionSorted (tt.triggeredTopics.map (fun id => (getTopic tt id).subs))).head?) :
    MergeInv (tt.triggeredTopics.map (fun id => (getTopic tt id).subs))
      (tt.triggeredTopics.map (fun id => (getTopic tt id).messages))
      [] (unionSorted (tt.triggeredTopics.map (fun id => (getTopic tt id).subs)))
      (initMergeState tt) [] := by
  have hfix : (tt.triggeredTopics.map (fun id => (getTopic tt id).subs)).map
      (fun l => l.filter (fun x =>
        (unionSorted
          (tt.triggeredTopics.map (fun id => (getTopic tt id).subs))).contains x)) =
      tt.triggeredTopics.map (fun id => (getTopic tt id).subs) := by
    conv_rhs =>
      rw [← List.map_id (tt.triggeredTopics.map (fun id => (getTopic tt id).subs))]
    apply List.map_congr_left
    intro l hl
    simp only [id]
    apply List.filter_eq_self.mpr
    intro x hx
    rw [contains_eq, decide_eq_true_eq]
    exact (mem_unionSorted _ _).mpr ⟨l, hl, hx⟩
  refine ⟨by simp, ?_, ?_, ?_, List.Pairwise.nil, by simp [initMergeState],
    by simp, List.Forall₂.nil, by simp⟩
  · rw [hfix]
    show tt.triggeredTopics.map
        (fun id => ((getTopic tt id).subs, (getTopic tt id).messages)) = _
    rw [List.zip_map']
  · exact Hmin
  · have h1 : ((initMergeState tt).topics.countP (fun tc => !tc.1.isEmpty)) =
        tt.triggeredTopics.length := by
      show ((tt.triggeredTopics.map
          (fun id => ((getTopic tt id).subs, (getTopic tt id).messages))).countP
          (fun tc => !tc.1.isEmpty)) = _
      rw [List.countP_map]
      apply List.countP_eq_length.mpr
      intro id hid
      simp only [Function.comp_apply, Bool.not_eq_true']
      cases hsubs : (getTopic tt id).subs with
      | nil => exact absurd hsubs (Hne id hid)
      | cons a t => rfl
    have h2 : (initMergeState tt).nonEmpty = (tt.triggeredTopics.length : Int) := rfl
    rw [h2, h1]
/-! ### `payloadFor` agrees with the spec-side `subscriberPayload` -/
theorem payloadFor_eq_subscriberPayload (tt : TopicTree) (s : Nat) :
    payloadFor (tt.triggeredTopics.map (fun id => (getTopic tt id).subs))
      (tt.triggeredTopics.map (fun id => (getTopic tt id).messages)) s =
      subscriberPayload tt s := by
  unfold payloadFor subscriberPayload memberFlags
  rw [List.map_map]
  have hcomp : ((fun l => l.contains s) ∘ fun id => (getTopic tt id).subs) =
      (fun id => (getTopic tt id).subs.contains s) := rfl
  rw [hcomp, selectFlags_map, buildPayload_eq_spec]
/-- C1 (corrected): provided no publish or (un)subscribe intervened between
the batch's publishes and the drain (so the tracked `min` is the least
subscriber of the batch), every triggered node has a non-empty subscriber
set, at most 31 nodes are triggered, and the merge loop is given enough
fuel, `drain` completes and the callback is invoked exactly once per
distinct subscriber of the batch, in ascending order, with the merged
deduplicated payload of exactly the triggered nodes that subscriber belongs
to. -/
theorem drain_delivers_once_per_distinct_subscriber (fuel : Nat) (tt : TopicTree)
    (H0 : tt.triggeredTopics ≠ [])
    (Hsort : ∀ id ∈ tt.triggeredTopics, List.Sorted (· < ·) (getTopic tt id).subs)
    (Hne : ∀ id ∈ tt.triggeredTopics, (getTopic tt id).subs ≠ [])
    (Hk : tt.triggeredTopics.length ≤ 31)
    (Hmin : tt.minSub =
      (unionSorted (tt.triggeredTopics.map (fun id => (getTopic tt id).subs))).head?)
    (Hfuel : (unionSorted
      (tt.triggeredTopics.map (fun id => (getTopic tt id).subs))).length ≤ fuel) :
    ∃ tt1 ds, drain fuel tt = some (tt1, ds) ∧
      List.Forall₂
        (fun s d => d.target = some s ∧ d.payload = subscriberPayload tt s)
        (unionSorted (tt.triggeredTopics.map (fun id => (getTopic tt id).subs))) ds := by
  have Hlen : (tt.triggeredTopics.map (fun id => (getTopic tt id).subs)).length =
      (tt.triggeredTopics.map (fun id => (getTopic tt id).messages)).length := by
    simp
  have Hsort0 : ∀ l ∈ tt.triggeredTopics.map (fun id => (getTopic tt id).subs),
      List.Sorted (· < ·) l := by
    intro l hl
    obtain ⟨id, hid, rfl⟩ := List.mem_map.mp hl
    exact Hsort id hid
  have Hk0 : (tt.triggeredTopics.map (fun id => (getTopic tt id).subs)).length ≤ 31 := by
    simpa using Hk
  obtain ⟨stF, dsF, hrun, hf2, _⟩ :=
    mergeInv_run _ _ Hlen Hsort0 Hk0 _ [] (initMergeState tt) []
      (mergeInv_init tt Hne Hmin) fuel Hfuel
  refine ⟨{ tt.triggeredTopics.foldl clearTopic tt with
              triggeredTopics := [], minSub := stF.minIt }, dsF, ?_, ?_⟩
  · unfold drain
    rw [if_neg (by simpa [List.length_eq_zero] using H0), hrun]
    rfl
  · refine List.Forall₂.imp ?_ hf2
    intro s d hd
    exact ⟨hd.1, by rw [hd.2, payloadFor_eq_subscriberPayload]⟩
theorem drain_delivers_once_per_distinct_subscriber_witness :
    ∃ tt1 ds, drain 2 c1wit = some (tt1, ds) ∧
      List.Forall₂
        (fun s d => d.target = some s ∧ d.payload = subscriberPayload c1wit s)
        (unionSorted
          (c1wit.triggeredTopics.map (fun id => (getTopic c1wit id).subs))) ds :=
  drain_delivers_once_per_distinct_subscriber 2 c1wit (by decide) (by decide)
    (by decide) (by decide) (by decide) (by decide)
/-- C5 (corrected): under the same batch hypotheses as C1, a completed drain
performs exactly one delivery per distinct subscriber, and whenever two
subscribers match the identical subset of triggered nodes and the merged
payload is non-empty, every delivery after the first for that subset reuses
the cached payload instead of constructing it again.  (For an empty merged
payload the cache test `length() == 0` cannot distinguish a cached empty
payload from a cache miss, so the payload is reconstructed each time; see
the counterexample.) -/
theorem cached_payload_reused_for_equal_subsets (fuel : Nat) (tt : TopicTree)
    (H0 : tt.triggeredTopics ≠ [])
    (Hsort : ∀ id ∈ tt.triggeredTopics, List.Sorted (· < ·) (getTopic tt id).subs)
    (Hne : ∀ id ∈ tt.triggeredTopics, (getTopic tt id).subs ≠ [])
    (Hk : tt.triggeredTopics.length ≤ 31)
    (Hmin : tt.minSub =
      (unionSorted (tt.triggeredTopics.map (fun id => (getTopic tt id).subs))).head?)
    (Hfuel : (unionSorted
      (tt.triggeredTopics.map (fun id => (getTopic tt id).subs))).length ≤ fuel) :
    ∃ tt1 ds, drain fuel tt = some (tt1, ds) ∧
      ds.length =
        (unionSorted (tt.triggeredTopics.map (fun id => (getTopic tt id).subs))).length ∧
      List.Pairwise
        (fun p q =>
          memberFlags p.1 (tt.triggeredTopics.map (fun id => (getTopic tt id).subs)) =
            memberFlags q.1 (tt.triggeredTopics.map (fun id => (getTopic tt id).subs)) →
          subscriberPayload tt p.1 ≠ "" → q.2.built = false)
        ((unionSorted (tt.triggeredTopics.map (fun id => (getTopic tt id).subs))).zip ds) := by
  have Hlen : (tt.triggeredTopics.map (fun id => (getTopic tt id).subs)).length =
      (tt.triggeredTopics.map (fun id => (getTopic tt id).messages)).length := by
    simp
  have Hsort0 : ∀ l ∈ tt.triggeredTopics.map (fun id => (getTopic tt id).subs),
      List.Sorted (· < ·) l := by
    intro l hl
    obtain ⟨id, hid, rfl⟩ := List.mem_map.mp hl
    exact Hsort id hid
  have Hk0 : (tt.triggeredTopics.map (fun id => (getTopic tt id).subs)).length ≤ 31 := by
    simpa using Hk
  obtain ⟨stF, dsF, hrun, hf2, hf3⟩ :=
    mergeInv_run _ _ Hlen Hsort0 Hk0 _ [] (initMergeState tt) []
      (mergeInv_init tt Hne Hmin) fuel Hfuel
  refine ⟨{ tt.triggeredTopics.foldl clearTopic tt with
              triggeredTopics := [], minSub := stF.minIt }, dsF, ?_, ?_, ?_⟩
  · unfold drain
    rw [if_neg (by simpa [List.length_eq_zero] using H0), hrun]
    rfl
  · exact (List.Forall₂.length_eq hf2).symm
  · refine List.Pairwise.imp ?_ hf3
    intro p q hpq heq hne
    apply hpq heq
    rw [payloadFor_eq_subscriberPayload]
    exact hne
theorem cached_payload_reused_for_equal_subsets_witness :
    ∃ tt1 ds, drain 2 c5wit = some (tt1, ds) ∧
      ds.length =
        (unionSorted (c5wit.triggeredTopics.map (fun id => (getTopic c5wit id).subs))).length ∧
      List.Pairwise
        (fun p q =>
          memberFlags p.1 (c5wit.triggeredTopics.map (fun id => (getTopic c5wit id).subs)) =
            memberFlags q.1 (c5wit.triggeredTopics.map (fun id => (getTopic c5wit id).subs)) →
          subscriberPayload c5wit p.1 ≠ "" → q.2.built = false)
        ((unionSorted
          (c5wit.triggeredTopics.map (fun id => (getTopic c5wit id).subs))).zip ds) :=
  cached_payload_reused_for_equal_subsets 2 c5wit (by decide) (by decide)
    (by decide) (by decide) (by decide) (by decide)
/-! ### C9: `unsubscribeAll` and `trimTree` -/
theorem getTopic_oob (tt : TopicTree) {j : Nat} (h : tt.topics.length ≤ j) :
    getTopic tt j = default := by
  simp [getTopic, List.getD_eq_getElem?_getD, List.getElem?_eq_none h]
theorem length_setTopic (tt : TopicTree) (p : Nat) (X : Topic) :
    (setTopic tt p X).topics.length = tt.topics.length := by
  simp [setTopic]
theorem trimTreeAux_succ (fuel : Nat) (tt : TopicTree) (id : Nat) :
    trimTreeAux (fuel + 1) tt id =
      if (getTopic tt id).subs = [] ∧ (getTopic tt id).children = [] ∧
          (getTopic tt id).terminatingWildcardChild = none ∧
          (getTopic tt id).wildcardChild = none then
        match (getTopic tt id).parent with
        | none => tt
        | some p =>
          if p ≠ 0 then
            trimTreeAux fuel
              (setTopic tt p (trimmedParent (getTopic tt id) (getTopic tt p))) p
          else setTopic tt p (trimmedParent (getTopic tt id) (getTopic tt p))
      else tt := rfl
theorem trimTreeAux_succ_stop (fuel : Nat) (tt : TopicTree) (id : Nat)
    (hc : ¬ ((getTopic tt id).subs = [] ∧ (getTopic tt id).children = [] ∧
      (getTopic tt id).terminatingWildcardChild = none ∧
      (getTopic tt id).wildcardChild = none)) :
    trimTreeAux (fuel + 1) tt id = tt := by
  rw [trimTreeAux_succ, if_neg hc]
theorem trimTreeAux_succ_none (fuel : Nat) (tt : TopicTree) (id : Nat)
    (hc : (getTopic tt id).subs = [] ∧ (getTopic tt id).children = [] ∧
      (getTopic tt id).terminatingWildcardChild = none ∧
      (getTopic tt id).wildcardChild = none)
    (hp : (getTopic tt id).parent = none) :
    trimTreeAux (fuel + 1) tt id = tt := by
  rw [trimTreeAux_succ, if_pos hc, hp]
theorem trimTreeAux_succ_some (fuel : Nat) (tt : TopicTree) (id p : Nat)
    (hc : (getTopic tt id).subs = [] ∧ (getTopic tt id).children = [] ∧
      (getTopic tt id).terminatingWildcardChild = none ∧
      (getTopic tt id).wildcardChild = none)
    (hp : (getTopic tt id).parent = some p) :
    trimTreeAux (fuel + 1) tt id =
      if p ≠ 0 then
        trimTreeAux fuel
          (setTopic tt p (trimmedParent (getTopic tt id) (getTopic tt p))) p
      else setTopic tt p (trimmedParent (getTopic tt id) (getTopic tt p)) := by
  rw [trimTreeAux_succ, if_pos hc, hp]
theorem trimmedParent_subs (t pt : Topic) : (trimmedParent t pt).subs = pt.subs := by
  unfold trimmedParent
  split_ifs <;> rfl
theorem trimmedParent_parent (t pt : Topic) :
    (trimmedParent t pt).parent = pt.parent := by
  unfold trimmedParent
  split_ifs <;> rfl
theorem trimmedParent_children (t pt : Topic) :
    (trimmedParent t pt).children = eraseKey t.name pt.children := by
  unfold trimmedParent
  split_ifs <;> rfl
theorem trimmedParent_twc (t pt : Topic) (h : t.name = "#") :
    (trimmedParent t pt).terminatingWildcardChild = none := by
  unfold trimmedParent
  rw [if_pos h]
theorem trimmedParent_wc (t pt : Topic) (h : t.name = "+") :
    (trimmedParent t pt).wildcardChild = none := by
  unfold trimmedParent
  have hne : ¬ t.name = "#" := by
    rw [h]
    decide
  rw [if_neg hne, if_pos h]
theorem lookup_eraseKey_self (k : String) (l : List (String × Nat)) :
    (eraseKey k l).lookup k = none := by
  induction l with
  | nil => rfl
  | cons a t ih =>
    obtain ⟨k1, v1⟩ := a
    unfold eraseKey at ih ⊢
    rw [List.filter_cons]
    by_cases h : k1 = k
    · rw [if_neg (by simp [h])]
      exact ih
    · rw [if_pos (by simp [h])]
      simp only [List.lookup]
      have hne : (k == k1) = false := by
        simp only [beq_eq_false_iff_ne, ne_eq]
        exact fun hcon => h hcon.symm
      rw [hne]
      exact ih
theorem fields_setTopic (tt : TopicTree) (p : Nat) (X : Topic) (j : Nat)
    (hsubs : X.subs = (getTopic tt p).subs)
    (hpar : X.parent = (getTopic tt p).parent) :
    (getTopic (setTopic tt p X) j).subs = (getTopic tt j).subs ∧
      (getTopic (setTopic tt p X) j).parent = (getTopic tt j).parent := by
  by_cases hj : p = j
  · subst hj
    rw [getTopic_setTopic_self]
    split
    · exact ⟨hsubs, hpar⟩
    · next h =>
      rw [getTopic_oob tt (le_of_not_lt h)]
      exact ⟨rfl, rfl⟩
  · rw [getTopic_setTopic_ne tt hj]
    exact ⟨rfl, rfl⟩
theorem trim_fields (fuel : Nat) :
    ∀ (tt : TopicTree) (id j : Nat),
      (getTopic (trimTreeAux fuel tt id) j).subs = (getTopic tt j).subs ∧
      (getTopic (trimTreeAux fuel tt id) j).parent = (getTopic tt j).parent ∧
      (trimTreeAux fuel tt id).topics.length = tt.topics.length := by
  induction fuel with
  | zero => intro tt id j; exact ⟨rfl, rfl, rfl⟩
  | succ fuel ih =>
    intro tt id j
    by_cases hc : (getTopic tt id).subs = [] ∧ (getTopic tt id).children = [] ∧
        (getTopic tt id).terminatingWildcardChild = none ∧
        (getTopic tt id).wildcardChild = none
    · cases hp : (getTopic tt id).parent with
      | none =>
        rw [trimTreeAux_succ_none fuel tt id hc hp]
        exact ⟨rfl, rfl, rfl⟩
      | some p =>
        rw [trimTreeAux_succ_some fuel tt id p hc hp]
        have hset := fields_setTopic tt p
          (trimmedParent (getTopic tt id) (getTopic tt p)) j
          (trimmedParent_subs _ _) (trimmedParent_parent _ _)
        by_cases hp0 : p ≠ 0
        · rw [if_pos hp0]
          obtain ⟨h1, h2, h3⟩ := ih
            (setTopic tt p (trimmedParent (getTopic tt id) (getTopic tt p))) p j
          rw [h1, h2, h3]
          exact ⟨hset.1, hset.2, length_setTopic _ _ _⟩
        · rw [if_neg hp0]
          exact ⟨hset.1, hset.2, length_setTopic _ _ _⟩
    · rw [trimTreeAux_succ_stop fuel tt id hc]
      exact ⟨rfl, rfl, rfl⟩
theorem subs_trimTree (tt : TopicTree) (id j : Nat) :
    (getTopic (trimTree tt id) j).subs = (getTopic tt j).subs :=
  (trim_fields tt.topics.length tt id j).1
theorem length_trimTree (tt : TopicTree) (id : Nat) :
    (trimTree tt id).topics.length = tt.topics.length :=
  (trim_fields tt.topics.length tt id 0).2.2
theorem parentWF_setTopic (tt : TopicTree) (p : Nat) (X : Topic)
    (hpar : X.parent = (getTopic tt p).parent) (hwf : parentWF tt) :
    parentWF (setTopic tt p X) := by
  intro i hi q hq
  rw [length_setTopic] at hi
  by_cases hip : p = i
  · subst hip
    rw [getTopic_setTopic_self, if_pos hi, hpar] at hq
    exact hwf p hi q hq
  · rw [getTopic_setTopic_ne tt hip] at hq
    exact hwf i hi q hq
theorem trim_only_below (fuel : Nat) :
    ∀ (tt : TopicTree) (id j : Nat), parentWF tt → id ≤ j →
      getTopic (trimTreeAux fuel tt id) j = getTopic tt j := by
  induction fuel with
  | zero => intro tt id j _ _; rfl
  | succ fuel ih =>
    intro tt id j hwf hij
    by_cases hc : (getTopic tt id).subs = [] ∧ (getTopic tt id).children = [] ∧
        (getTopic tt id).terminatingWildcardChild = none ∧
        (getTopic tt id).wildcardChild = none
    · cases hp : (getTopic tt id).parent with
      | none => rw [trimTreeAux_succ_none fuel tt id hc hp]
      | some p =>
        rw [trimTreeAux_succ_some fuel tt id p hc hp]
        have hplt : p < id := by
          by_cases hid : id < tt.topics.length
          · exact hwf id hid p hp
          · rw [getTopic_oob tt (le_of_not_lt hid)] at hp
            cases hp
        have hwf1 : parentWF
            (setTopic tt p (trimmedParent (getTopic tt id) (getTopic tt p))) :=
          parentWF_setTopic tt p _ (trimmedParent_parent _ _) hwf
        have hpj : p ≠ j := by omega
        by_cases hp0 : p ≠ 0
        · rw [if_pos hp0]
          rw [ih _ p j hwf1 (by omega)]
          exact getTopic_setTopic_ne tt hpj _
        · rw [if_neg hp0]
          exact getTopic_setTopic_ne tt hpj _
    · rw [trimTreeAux_succ_stop fuel tt id hc]
theorem trim_detaches (u : TopicTree) (id p : Nat)
    (hwf : parentWF u) (hplen : p < u.topics.length)
    (hsubs : (getTopic u id).subs = []) (hch : (getTopic u id).children = [])
    (htwc : (getTopic u id).terminatingWildcardChild = none)
    (hwc : (getTopic u id).wildcardChild = none)
    (hp : (getTopic u id).parent = some p) :
    (getTopic (trimTree u id) p).children.lookup (getTopic u id).name = none ∧
    ((getTopic u id).name = "#" →
      (getTopic (trimTree u id) p).terminatingWildcardChild = none) ∧
    ((getTopic u id).name = "+" →
      (getTopic (trimTree u id) p).wildcardChild = none) := by
  unfold trimTree
  obtain ⟨f1, hf⟩ : ∃ f1, u.topics.length = f1 + 1 :=
    ⟨u.topics.length - 1, by omega⟩
  rw [hf, trimTreeAux_succ_some f1 u id p ⟨hsubs, hch, htwc, hwc⟩ hp]
  have hX : getTopic
      (setTopic u p (trimmedParent (getTopic u id) (getTopic u p))) p =
      trimmedParent (getTopic u id) (getTopic u p) := by
    rw [getTopic_setTopic_self, if_pos hplen]
  have hgoal : ∀ v : TopicTree,
      getTopic v p = trimmedParent (getTopic u id) (getTopic u p) →
      (getTopic v p).children.lookup (getTopic u id).name = none ∧
      ((getTopic u id).name = "#" →
        (getTopic v p).terminatingWildcardChild = none) ∧
      ((getTopic u id).name = "+" → (getTopic v p).wildcardChild = none) := by
    intro v hv
    rw [hv]
    refine ⟨?_, trimmedParent_twc _ _, trimmedParent_wc _ _⟩
    rw [trimmedParent_children]
    exact lookup_eraseKey_self _ _
  have hwf1 : parentWF
      (setTopic u p (trimmedParent (getTopic u id) (getTopic u p))) :=
    parentWF_setTopic u p _ (trimmedParent_parent _ _) hwf
  by_cases hp0 : p ≠ 0
  · rw [if_pos hp0]
    apply hgoal
    rw [trim_only_below f1 _ p p hwf1 (le_refl p)]
    exact hX
  · rw [if_neg hp0]
    exact hgoal _ hX
theorem trimTree_root_noop (u : TopicTree)
    (h : (getTopic u 0).parent = none) : trimTree u 0 = u := by
  unfold trimTree
  cases hl : u.topics.length with
  | zero => rfl
  | succ f =>
    by_cases hc : (getTopic u 0).subs = [] ∧ (getTopic u 0).children = [] ∧
        (getTopic u 0).terminatingWildcardChild = none ∧
        (getTopic u 0).wildcardChild = none
    · exact trimTreeAux_succ_none f u 0 hc h
    · exact trimTreeAux_succ_stop f u 0 hc
theorem erase_erase_self (l : List Nat) (a : Nat) (h : l.Nodup) :
    (l.erase a).erase a = l.erase a := by
  apply List.erase_of_not_mem
  rw [h.mem_erase_iff]
  simp
theorem subs_unsub_step (tt : TopicTree) (s id j : Nat) :
    (getTopic (trimTree
      (setTopic tt id
        { getTopic tt id with subs := (getTopic tt id).subs.erase s }) id) j).subs =
      if j = id then (getTopic tt id).subs.erase s else (getTopic tt j).subs := by
  rw [subs_trimTree]
  by_cases hj : j = id
  · subst hj
    rw [getTopic_setTopic_self]
    split
    · rw [if_pos rfl]
    · next h =>
      rw [if_pos rfl, getTopic_oob tt (le_of_not_lt h)]
      rfl
  · rw [getTopic_setTopic_ne tt (fun hcon => hj hcon.symm), if_neg hj]
theorem length_unsub_step (tt : TopicTree) (s id : Nat) :
    (trimTree (setTopic tt id
      { getTopic tt id with subs := (getTopic tt id).subs.erase s }) id).topics.length =
      tt.topics.length := by
  rw [length_trimTree, length_setTopic]
theorem subs_unsubscribeAll (s : Nat) (subscriptions : List Nat) :
    ∀ tt : TopicTree, (∀ j, ((getTopic tt j).subs).Nodup) →
      ∀ j, (getTopic (unsubscribeAll tt s subscriptions) j).subs =
        if j ∈ subscriptions then ((getTopic tt j).subs).erase s
        else (getTopic tt j).subs := by
  induction subscriptions with
  | nil =>
    intro tt _ j
    simp [unsubscribeAll]
  | cons id rest ih =>
    intro tt hnd j
    have hstep : unsubscribeAll tt s (id :: rest) =
        unsubscribeAll (trimTree (setTopic tt id
          { getTopic tt id with subs := (getTopic tt id).subs.erase s }) id)
          s rest := rfl
    rw [hstep]
    have hnd1 : ∀ j1, ((getTopic (trimTree (setTopic tt id
        { getTopic tt id with subs := (getTopic tt id).subs.erase s }) id) j1).subs).Nodup := by
      intro j1
      rw [subs_unsub_step]
      split
      · exact (hnd id).erase s
      · exact hnd j1
    rw [ih _ hnd1 j]
    by_cases hjr : j ∈ rest
    · rw [if_pos hjr, if_pos (List.mem_cons_of_mem _ hjr), subs_unsub_step]
      by_cases hji : j = id
      · subst hji
        rw [if_pos rfl]
        exact erase_erase_self _ s (hnd j)
      · rw [if_neg hji]
    · rw [if_neg hjr, subs_unsub_step]
      by_cases hji : j = id
      · subst hji
        rw [if_pos rfl, if_pos (List.mem_cons_self _ _)]
      · rw [if_neg hji, if_neg (by simp [hji, hjr])]
theorem length_unsubscribeAll (s : Nat) (subscriptions : List Nat) :
    ∀ tt : TopicTree,
      (unsubscribeAll tt s subscriptions).topics.length = tt.topics.length := by
  induction subscriptions with
  | nil => intro tt; rfl
  | cons id rest ih =>
    intro tt
    have hstep : unsubscribeAll tt s (id :: rest) =
        unsubscribeAll (trimTree (setTopic tt id
          { getTopic tt id with subs := (getTopic tt id).subs.erase s }) id)
          s rest := rfl
    rw [hstep, ih, length_unsub_step]
/-- C9: `unsubscribeAll` erases the subscriber from the subscriber set of
every node in its subscriptions list and leaves every other set untouched;
no node is ever deallocated from the arena (in particular the root always
survives); and the trim it performs from each node behaves as claimed: a
node with no subscribers, no children and no wildcard children is detached
from its parent's children map, with the parent's `"#"`/`"+"` fast-path
pointer cleared when the node is so named; trimming only ever rewrites
proper ancestors (indices strictly below the trimmed node); and trimming at
the root is a no-op, so the root is never detached. -/
theorem unsubscribeAll_removes_and_trims (tt : TopicTree) (s : Nat)
    (subscriptions : List Nat)
    (Hnodup : ∀ j < tt.topics.length, ((getTopic tt j).subs).Nodup) :
    (∀ j, (getTopic (unsubscribeAll tt s subscriptions) j).subs =
        if j ∈ subscriptions then ((getTopic tt j).subs).erase s
        else (getTopic tt j).subs) ∧
    (unsubscribeAll tt s subscriptions).topics.length = tt.topics.length ∧
    (∀ u id p, parentWF u → p < u.topics.length →
      (getTopic u id).subs = [] → (getTopic u id).children = [] →
      (getTopic u id).terminatingWildcardChild = none →
      (getTopic u id).wildcardChild = none →
      (getTopic u id).parent = some p →
      (getTopic (trimTree u id) p).children.lookup (getTopic u id).name = none ∧
      ((getTopic u id).name = "#" →
        (getTopic (trimTree u id) p).terminatingWildcardChild = none) ∧
      ((getTopic u id).name = "+" →
        (getTopic (trimTree u id) p).wildcardChild = none)) ∧
    (∀ u id j, parentWF u → id ≤ j → getTopic (trimTree u id) j = getTopic u j) ∧
    (∀ u, (getTopic u 0).parent = none → trimTree u 0 = u) := by
  have hnd : ∀ j, ((getTopic tt j).subs).Nodup := by
    intro j
    by_cases hj : j < tt.topics.length
    · exact Hnodup j hj
    · rw [getTopic_oob tt (le_of_not_lt hj)]
      exact List.nodup_nil
  refine ⟨subs_unsubscribeAll s subscriptions tt hnd,
    length_unsubscribeAll s subscriptions tt, ?_, ?_, trimTree_root_noop⟩
  · intro u id p hwf hplen hsubs hch htwc hwc hp
    exact trim_detaches u id p hwf hplen hsubs hch htwc hwc hp
  · intro u id j hwf hij
    exact trim_only_below u.topics.length u id j hwf hij
theorem unsubscribeAll_removes_and_trims_witness :
    (∀ j, (getTopic (unsubscribeAll c9wit 7 [1]) j).subs =
        if j ∈ [1] then ((getTopic c9wit j).subs).erase 7
        else (getTopic c9wit j).subs) ∧
    (unsubscribeAll c9wit 7 [1]).topics.length = c9wit.topics.length ∧
    (∀ u id p, parentWF u → p < u.topics.length →
      (getTopic u id).subs = [] → (getTopic u id).children = [] →
      (getTopic u id).terminatingWildcardChild = none →
      (getTopic u id).wildcardChild = none →
      (getTopic u id).parent = some p →
      (getTopic (trimTree u id) p).children.lookup (getTopic u id).name = none ∧
      ((getTopic u id).name = "#" →
        (getTopic (trimTree u id) p).terminatingWildcardChild = none) ∧
      ((getTopic u id).name = "+" →
        (getTopic (trimTree u id) p).wildcardChild = none)) ∧
    (∀ u id j, parentWF u → id ≤ j → getTopic (trimTree u id) j = getTopic u j) ∧
    (∀ u, (getTopic u 0).parent = none → trimTree u 0 = u) :=
  unsubscribeAll_removes_and_trims c9wit 7 [1] (by decide)
/-! ### C10: re-subscribing the same pattern -/
theorem subscribeLoop_cons_some (tt : TopicTree) (iter : Nat) (seg : String)
    (rest : List String) {child : Nat}
    (h : (getTopic tt iter).children.lookup seg = some child) :
    subscribeLoop tt iter (seg :: rest) = subscribeLoop tt child rest := by
  conv_lhs =>
    unfold subscribeLoop
    rw [h]
theorem subscribeLoop_cons_none (tt : TopicTree) (iter : Nat) (seg : String)
    (rest : List String)
    (h : (getTopic tt iter).children.lookup seg = none) :
    subscribeLoop tt iter (seg :: rest) =
      subscribeLoop (extendTree tt iter seg) tt.topics.length rest := by
  conv_lhs =>
    unfold subscribeLoop
    rw [h]
  rfl
theorem length_extend (tt : TopicTree) (iter : Nat) (sg : String) :
    (extendTree tt iter sg).topics.length = tt.topics.length + 1 := by
  simp [extendTree, setTopic]
theorem getTopic_append_lt (tt : TopicTree) (X : Topic) {i : Nat}
    (h : i < tt.topics.length) :
    getTopic { tt with topics := tt.topics ++ [X] } i = getTopic tt i := by
  simp [getTopic, List.getD_eq_getElem?_getD, List.getElem?_append, h]
theorem getTopic_concat_self (tt : TopicTree) (X : Topic) :
    getTopic { tt with topics := tt.topics ++ [X] } tt.topics.length = X := by
  simp [getTopic, List.getD_eq_getElem?_getD, List.getElem?_concat_length]
theorem extendedParent_children (tt : TopicTree) (iter : Nat) (sg : String) :
    (extendedParent tt iter sg).children =
      (getTopic { tt with topics := tt.topics ++ [newTopicFor iter sg] } iter).children
        ++ [(sg, tt.topics.length)] := rfl
theorem children_extend_self (tt : TopicTree) (iter : Nat) (sg : String)
    (hiter : iter < tt.topics.length) :
    (getTopic (extendTree tt iter sg) iter).children =
      (getTopic tt iter).children ++ [(sg, tt.topics.length)] := by
  unfold extendTree
  rw [getTopic_setTopic_self,
    if_pos (by simp only [List.length_append, List.length_singleton]; omega),
    extendedParent_children, getTopic_append_lt tt _ hiter]
theorem getTopic_extend_other (tt : TopicTree) (iter : Nat) (sg : String)
    {i : Nat} (hne : iter ≠ i) (hi : i < tt.topics.length) :
    getTopic (extendTree tt iter sg) i = getTopic tt i := by
  unfold extendTree
  rw [getTopic_setTopic_ne _ hne, getTopic_append_lt tt _ hi]
theorem getTopic_extend_new (tt : TopicTree) (iter : Nat) (sg : String)
    (hiter : iter < tt.topics.length) :
    getTopic (extendTree tt iter sg) tt.topics.length = newTopicFor iter sg := by
  unfold extendTree
  rw [getTopic_setTopic_ne _ (by omega), getTopic_concat_self]
theorem lookup_append_some {α β : Type} [BEq α] {l l2 : List (α × β)} {k : α}
    {c : β} (h : l.lookup k = some c) : (l ++ l2).lookup k = some c := by
  induction l with
  | nil => simp [List.lookup] at h
  | cons a t ih =>
    obtain ⟨k1, v1⟩ := a
    rw [List.cons_append]
    simp only [List.lookup] at h ⊢
    cases hk : (k == k1) with
    | true =>
      rw [hk] at h
      exact h
    | false =>
      rw [hk] at h
      exact ih h
theorem lookup_append_none {α β : Type} [BEq α] {l : List (α × β)} {k : α}
    (l2 : List (α × β)) (h : l.lookup k = none) :
    (l ++ l2).lookup k = l2.lookup k := by
  induction l with
  | nil => rfl
  | cons a t ih =>
    obtain ⟨k1, v1⟩ := a
    rw [List.cons_append]
    simp only [List.lookup] at h ⊢
    cases hk : (k == k1) with
    | true =>
      rw [hk] at h
      simp at h
    | false =>
      rw [hk] at h
      exact ih h
theorem mem_of_lookup_children {l : List (String × Nat)} {k : String} {v : Nat}
    (h : l.lookup k = some v) : (k, v) ∈ l := by
  induction l with
  | nil => simp [List.lookup] at h
  | cons a t ih =>
    obtain ⟨k1, v1⟩ := a
    simp only [List.lookup] at h
    cases hk : (k == k1) with
    | true =>
      rw [hk] at h
      have hkeq : k = k1 := eq_of_beq hk
      subst hkeq
      have hveq : v1 = v := Option.some.inj h
      subst hveq
      exact List.mem_cons_self _ _
    | false =>
      rw [hk] at h
      exact List.mem_cons_of_mem _ (ih h)
theorem lookup_children_extend (tt : TopicTree) (iter i : Nat) (sg seg : String)
    (c : Nat) (h : (getTopic tt i).children.lookup seg = some c) :
    (getTopic (extendTree tt iter sg) i).children.lookup seg = some c := by
  by_cases hi : i < tt.topics.length
  · by_cases hie : iter = i
    · subst hie
      rw [children_extend_self tt iter sg hi]
      exact lookup_append_some h
    · rw [getTopic_extend_other tt iter sg hie hi]
      exact h
  · rw [getTopic_oob tt (le_of_not_lt hi)] at h
    simp [List.lookup] at h
theorem lookup_children_extend_self (tt : TopicTree) (iter : Nat) (sg : String)
    (hiter : iter < tt.topics.length)
    (hl : (getTopic tt iter).children.lookup sg = none) :
    (getTopic (extendTree tt iter sg) iter).children.lookup sg =
      some tt.topics.length := by
  rw [children_extend_self tt iter sg hiter, lookup_append_none _ hl]
  simp [List.lookup]
theorem lookup_children_mono (segs : List String) :
    ∀ (tt : TopicTree) (iter i : Nat) (seg : String) (c : Nat),
      (getTopic tt i).children.lookup seg = some c →
      (getTopic (subscribeLoop tt iter segs).1 i).children.lookup seg = some c := by
  induction segs with
  | nil => intro tt iter i seg c h; exact h
  | cons sg rest ih =>
    intro tt iter i seg c h
    cases hl : (getTopic tt iter).children.lookup sg with
    | some child =>
      rw [subscribeLoop_cons_some tt iter sg rest hl]
      exact ih tt child i seg c h
    | none =>
      rw [subscribeLoop_cons_none tt iter sg rest hl]
      exact ih _ _ i seg c (lookup_children_extend tt iter i sg seg c h)
theorem subscribeLoop_length_mono (segs : List String) :
    ∀ (tt : TopicTree) (iter : Nat),
      tt.topics.length ≤ (subscribeLoop tt iter segs).1.topics.length := by
  induction segs with
  | nil => intro tt iter; exact le_refl _
  | cons sg rest ih =>
    intro tt iter
    cases hl : (getTopic tt iter).children.lookup sg with
    | some child =>
      rw [subscribeLoop_cons_some tt iter sg rest hl]
      exact ih tt child
    | none =>
      rw [subscribeLoop_cons_none tt iter sg rest hl]
      have h1 := ih (extendTree tt iter sg) tt.topics.length
      rw [length_extend] at h1
      omega
theorem childWF_extend (tt : TopicTree) (iter : Nat) (sg : String)
    (hiter : iter < tt.topics.length) (hwf : childWF tt) :
    childWF (extendTree tt iter sg) := by
  intro i hi kv hkv
  rw [length_extend] at hi ⊢
  by_cases hie : i = iter
  · subst hie
    rw [children_extend_self tt i sg hiter] at hkv
    rcases List.mem_append.mp hkv with hkv | hkv
    · have := hwf i hiter kv hkv
      omega
    · rw [List.mem_singleton] at hkv
      subst hkv
      exact ⟨hiter, by omega⟩
  · by_cases hilen : i < tt.topics.length
    · rw [getTopic_extend_other tt iter sg (fun hc => hie hc.symm) hilen] at hkv
      have := hwf i hilen kv hkv
      omega
    · have hieq : i = tt.topics.length := by omega
      subst hieq
      rw [getTopic_extend_new tt iter sg hiter] at hkv
      simp [newTopicFor] at hkv
theorem subscribeLoop_retrace (segs : List String) :
    ∀ (tt : TopicTree) (iter : Nat), childWF tt → iter < tt.topics.length →
      subscribeLoop (subscribeLoop tt iter segs).1 iter segs =
        subscribeLoop tt iter segs := by
  induction segs with
  | nil => intro tt iter _ _; rfl
  | cons sg rest ih =>
    intro tt iter hwf hiter
    cases hl : (getTopic tt iter).children.lookup sg with
    | some child =>
      rw [subscribeLoop_cons_some tt iter sg rest hl]
      have hchild : child < tt.topics.length :=
        (hwf iter hiter (sg, child) (mem_of_lookup_children hl)).2
      rw [subscribeLoop_cons_some _ iter sg rest
        (lookup_children_mono rest tt child iter sg child hl)]
      exact ih tt child hwf hchild
    | none =>
      rw [subscribeLoop_cons_none tt iter sg rest hl]
      rw [subscribeLoop_cons_some _ iter sg rest
        (lookup_children_mono rest (extendTree tt iter sg) tt.topics.length iter
          sg tt.topics.length (lookup_children_extend_self tt iter sg hiter hl))]
      exact ih (extendTree tt iter sg) tt.topics.length
        (childWF_extend tt iter sg hiter hwf) (by rw [length_extend]; omega)
theorem subscribeLoop_term_lt (segs : List String) :
    ∀ (tt : TopicTree) (iter : Nat), childWF tt → iter < tt.topics.length →
      (subscribeLoop tt iter segs).2 < (subscribeLoop tt iter segs).1.topics.length := by
  induction segs with
  | nil => intro tt iter _ h; exact h
  | cons sg rest ih =>
    intro tt iter hwf hiter
    cases hl : (getTopic tt iter).children.lookup sg with
    | some child =>
      rw [subscribeLoop_cons_some tt iter sg rest hl]
      exact ih tt child hwf (hwf iter hiter (sg, child) (mem_of_lookup_children hl)).2
    | none =>
      rw [subscribeLoop_cons_none tt iter sg rest hl]
      exact ih (extendTree tt iter sg) tt.topics.length
        (childWF_extend tt iter sg hiter hwf) (by rw [length_extend]; omega)
theorem subscribeLoop_retrace_transfer (segs : List String) :
    ∀ (u v : TopicTree) (iter term : Nat),
      (∀ i, (getTopic u i).children = (getTopic v i).children) →
      subscribeLoop v iter segs = (v, term) →
      subscribeLoop u iter segs = (u, term) := by
  induction segs with
  | nil =>
    intro u v iter term _ h
    have h2 : iter = term := by
      have := congrArg Prod.snd h
      simpa using this
    subst h2
    rfl
  | cons sg rest ih =>
    intro u v iter term hch h
    cases hl : (getTopic v iter).children.lookup sg with
    | some child =>
      rw [subscribeLoop_cons_some v iter sg rest hl] at h
      have hlu : (getTopic u iter).children.lookup sg = some child := by
        rw [hch iter]
        exact hl
      rw [subscribeLoop_cons_some u iter sg rest hlu]
      exact ih u v child term hch h
    | none =>
      exfalso
      rw [subscribeLoop_cons_none v iter sg rest hl] at h
      have hlen := subscribeLoop_length_mono rest (extendTree v iter sg)
        v.topics.length
      rw [h, length_extend] at hlen
      simp at hlen
theorem children_setTopic (tt : TopicTree) (p : Nat) (X : Topic) (j : Nat)
    (hch : X.children = (getTopic tt p).children) :
    (getTopic (setTopic tt p X) j).children = (getTopic tt j).children := by
  by_cases hj : p = j
  · subst hj
    rw [getTopic_setTopic_self]
    split
    · exact hch
    · next h => rw [getTopic_oob tt (le_of_not_lt h)]
  · rw [getTopic_setTopic_ne tt hj]
theorem insertSorted_idem (s : Nat) (l : List Nat) :
    insertSorted s (insertSorted s l) = insertSorted s l := by
  induction l with
  | nil => simp [insertSorted]
  | cons a t ih =>
    by_cases h1 : s < a
    · simp [insertSorted, h1, lt_irrefl]
    · by_cases h2 : s = a
      · simp [insertSorted, h1, h2, lt_irrefl]
      · simp [insertSorted, h1, h2, ih]
theorem setTopic_setTopic (tt : TopicTree) (i : Nat) (a b : Topic) :
    setTopic (setTopic tt i a) i b = setTopic tt i b := by
  simp [setTopic, List.set_set]
theorem subscribe_eq (tt : TopicTree) (topic : String) (s : Nat)
    (subscriptions : List Nat) (ttL : TopicTree) (term : Nat)
    (h : subscribeLoop tt 0 (splitTopic topic) = (ttL, term)) :
    subscribe tt topic s subscriptions =
      (setTopic ttL term
        { getTopic ttL term with
          subs := insertSorted s (getTopic ttL term).subs },
       subscriptions ++ [term]) := by
  unfold subscribe
  rw [h]
theorem resub_topic_eq (t : Topic) (s : Nat) :
    ({ { t with subs := insertSorted s t.subs } with
        subs :=
          insertSorted s
            (Topic.subs { t with subs := insertSorted s t.subs }) } : Topic) =
      { t with subs := insertSorted s t.subs } := by
  show ({ t with subs := insertSorted s (insertSorted s t.subs) } : Topic) = _
  rw [insertSorted_idem]
/-- C10 (corrected): re-subscribing the same subscriber to the same topic
pattern leaves the whole tree state — including the terminal node's
subscriber set — unchanged, but appends a second, duplicate entry for the
terminal node to the subscriber's `subscriptions` list
(`subscriber->subscriptions.push_back` is unconditional). -/
theorem resubscribe_leaves_tree_unchanged (tt : TopicTree) (topic : String)
    (s : Nat) (subscriptions : List Nat)
    (Hwf : childWF tt) (Hroot : 0 < tt.topics.length) :
    subscribe (subscribe tt topic s subscriptions).1 topic s
        (subscribe tt topic s subscriptions).2 =
      ((subscribe tt topic s subscriptions).1,
       (subscribe tt topic s subscriptions).2 ++
         [(subscribeLoop tt 0 (splitTopic topic)).2]) := by
  cases hLdef : subscribeLoop tt 0 (splitTopic topic) with
  | mk ttL term =>
    have hterm_lt : term < ttL.topics.length := by
      have h1 := subscribeLoop_term_lt (splitTopic topic) tt 0 Hwf Hroot
      rw [hLdef] at h1
      exact h1
    have hretr0 : subscribeLoop ttL 0 (splitTopic topic) = (ttL, term) := by
      have h1 := subscribeLoop_retrace (splitTopic topic) tt 0 Hwf Hroot
      rw [hLdef] at h1
      exact h1
    have hch : ∀ i,
        (getTopic (setTopic ttL term
          { getTopic ttL term with
            subs := insertSorted s (getTopic ttL term).subs }) i).children =
          (getTopic ttL i).children :=
      fun i => children_setTopic ttL term _ i rfl
    have hretr1 : subscribeLoop (setTopic ttL term
        { getTopic ttL term with
          subs := insertSorted s (getTopic ttL term).subs }) 0
          (splitTopic topic) =
        (setTopic ttL term
          { getTopic ttL term with
            subs := insertSorted s (getTopic ttL term).subs }, term) :=
      subscribeLoop_retrace_transfer (splitTopic topic) _ ttL 0 term hch hretr0
    rw [subscribe_eq tt topic s subscriptions ttL term hLdef]
    rw [subscribe_eq _ topic s _ _ term hretr1]
    have hget : getTopic (setTopic ttL term
        { getTopic ttL term with
          subs := insertSorted s (getTopic ttL term).subs }) term =
        { getTopic ttL term with
          subs := insertSorted s (getTopic ttL term).subs } := by
      rw [getTopic_setTopic_self, if_pos hterm_lt]
    rw [hget, setTopic_setTopic, resub_topic_eq]
theorem resubscribe_leaves_tree_unchanged_witness :
    subscribe (subscribe TopicTree.init "a" 5 []).1 "a" 5
        (subscribe TopicTree.init "a" 5 []).2 =
      ((subscribe TopicTree.init "a" 5 []).1,
       (subscribe TopicTree.init "a" 5 []).2 ++
         [(subscribeLoop TopicTree.init 0 (splitTopic "a")).2]) :=
  resubscribe_leaves_tree_unchanged TopicTree.init "a" 5 [] (by decide) (by decide)

end TopicTreeModel
